import Mathlib

/-!
Verification of the Smartspend derived-analytics engine.

Shallow embedding of the analytics code of the repository:
the settlement computation (`stats` in SplitAnalysis.tsx), the
replenishment predictor (`itemStats` in ShelfLifeInsights), the store
optimizer (`plan` in StorePlanner), the global search (`results` in
GlobalSearch) and the discount apportioning on save (`handleFinalSave`
in ExpenseForm).

Conventions of the embedding:
* monetary amounts and averages are rationals (the source uses JS
  numbers; the values and thresholds involved are exact in rationals);
* a calendar date is carried as the literal string stored on the
  expense together with its parsed timestamp in milliseconds, the
  value `new Date(dateStr).getTime()` yields in the source;
* a JS object used as a dictionary is an association list of
  key/value pairs in insertion order, or a key list plus a total
  valuation for the settlement state;
* `Math.floor` on a quotient of integers is `Int.fdiv`, and
  `Math.round` on the nonnegative quotients that occur is `round`.
-/

namespace Smartspend

/-- The fixed grocery category enumeration of `types.ts`. -/
inductive Category where
  | vegetables
  | fruits
  | meatSeafood
  | dairyEggs
  | bakery
  | pantry
  | frozen
  | snacks
  | beverages
  | alcohol
  | deli
  | baby
  | pet
  | household
  | personalCare
  | other
deriving DecidableEq

/-- The string value of each member of the TS `Category` enum. -/
def catName : Category → String
  | .vegetables => "Vegetables"
  | .fruits => "Fruits"
  | .meatSeafood => "Meat & Seafood"
  | .dairyEggs => "Dairy & Eggs"
  | .bakery => "Bakery"
  | .pantry => "Pantry & Dry Goods"
  | .frozen => "Frozen Foods"
  | .snacks => "Snacks & Candy"
  | .beverages => "Beverages"
  | .alcohol => "Alcohol"
  | .deli => "Deli & Prepared"
  | .baby => "Baby"
  | .pet => "Pet Supplies"
  | .household => "Household & Cleaning"
  | .personalCare => "Personal Care & Pharmacy"
  | .other => "Other"

/-- An expense record (`Expense` in `types.ts`).  `date` is the stored
date string; `dateTime` is its parse, the number
`new Date(date).getTime()` every component derives times from. -/
structure Expense where
  id : String
  description : String
  amount : ℚ
  date : String
  dateTime : ℤ
  category : Category
  store : String
  payer : String
  owner : String
  originalAmount : Option ℚ
deriving DecidableEq

/-- Milliseconds per day, the constant `1000 * 60 * 60 * 24` used for
every date-difference in the source. -/
def msPerDay : ℤ := 86400000

/-- Leading-run test on character lists: `pat` starts `hay`. -/
def listStarts : List Char → List Char → Bool
  | _, [] => true
  | [], _ :: _ => false
  | a :: as, b :: bs => (a == b) && listStarts as bs

/-- Substring test on character lists: some contiguous run of `hay`
equals `pat`.  Models JS `String.prototype.includes`. -/
def listIncl : List Char → List Char → Bool
  | _, [] => true
  | [], _ :: _ => false
  | c :: rest, pat => listStarts (c :: rest) pat || listIncl rest pat

/-- `strIncl s pat` holds when `pat` occurs as a substring of `s`,
as JS `s.includes(pat)`. -/
def strIncl (s pat : String) : Bool :=
  listIncl s.toList pat.toList

/-- First value stored under a key in an association list (a JS object
read `obj[k]`). -/
def alGet {α : Type} : List (String × α) → String → Option α
  | [], _ => none
  | (k0, v) :: rest, k => if k0 = k then some v else alGet rest k

/-- Rewrite the value stored under a key in an association list (a JS
object write `obj[k] = f(obj[k])`). -/
def alModify {α : Type} (l : List (String × α)) (k : String) (f : α → α) :
    List (String × α) :=
  l.map (fun kv => if kv.1 = k then (kv.1, f kv.2) else kv)

/-- Insertion step of a descending sort keyed by `f`. -/
def insertDescBy {α : Type} (f : α → ℤ) (x : α) : List α → List α
  | [] => [x]
  | y :: ys => if f y ≤ f x then x :: y :: ys else y :: insertDescBy f x ys

/-- Sort a list descending by the integer key `f`; models the
`.sort((a, b) => time(b) - time(a))` calls of the source. -/
def sortDescBy {α : Type} (f : α → ℤ) (l : List α) : List α :=
  l.foldr (insertDescBy f) []

theorem mem_insertDescBy {α : Type} (f : α → ℤ) (x : α) (l : List α) (a : α) :
    a ∈ insertDescBy f x l ↔ a = x ∨ a ∈ l := by
  induction l with
  | nil => simp [insertDescBy]
  | cons y ys ih =>
      by_cases h : f y ≤ f x
      · simp [insertDescBy, h]
      · simp [insertDescBy, h, ih]
        tauto

theorem mem_sortDescBy {α : Type} (f : α → ℤ) (l : List α) (a : α) :
    a ∈ sortDescBy f l ↔ a ∈ l := by
  induction l with
  | nil => simp [sortDescBy]
  | cons y ys ih =>
      simp only [sortDescBy, List.foldr_cons] at *
      rw [mem_insertDescBy, ih, List.mem_cons]

theorem length_insertDescBy {α : Type} (f : α → ℤ) (x : α) (l : List α) :
    (insertDescBy f x l).length = l.length + 1 := by
  induction l with
  | nil => simp [insertDescBy]
  | cons y ys ih =>
      by_cases h : f y ≤ f x
      · simp [insertDescBy, h]
      · simp [insertDescBy, h, ih]

theorem length_sortDescBy {α : Type} (f : α → ℤ) (l : List α) :
    (sortDescBy f l).length = l.length := by
  induction l with
  | nil => rfl
  | cons y ys ih =>
      simp only [sortDescBy, List.foldr_cons] at *
      rw [length_insertDescBy, ih, List.length_cons]

theorem pairwise_insertDescBy {α : Type} (f : α → ℤ) (x : α) (l : List α)
    (h : l.Pairwise (fun a b => f b ≤ f a)) :
    (insertDescBy f x l).Pairwise (fun a b => f b ≤ f a) := by
  induction l with
  | nil => simp [insertDescBy]
  | cons y ys ih =>
      by_cases hxy : f y ≤ f x
      · rw [show insertDescBy f x (y :: ys) = x :: y :: ys by
          simp [insertDescBy, hxy]]
        refine List.Pairwise.cons ?_ h
        intro b hb
        rcases List.mem_cons.mp hb with rfl | hb
        · exact hxy
        · exact le_trans (List.rel_of_pairwise_cons h hb) hxy
      · rw [show insertDescBy f x (y :: ys) = y :: insertDescBy f x ys by
          simp [insertDescBy, hxy]]
        have hys := (List.pairwise_cons.mp h).2
        have hrel := (List.pairwise_cons.mp h).1
        refine List.Pairwise.cons ?_ (ih hys)
        intro b hb
        rcases (mem_insertDescBy f x ys b).mp hb with rfl | hb
        · exact le_of_lt (lt_of_not_le hxy)
        · exact hrel b hb

theorem pairwise_sortDescBy {α : Type} (f : α → ℤ) (l : List α) :
    (sortDescBy f l).Pairwise (fun a b => f b ≤ f a) := by
  induction l with
  | nil => simp [sortDescBy]
  | cons y ys ih =>
      simp only [sortDescBy, List.foldr_cons] at *
      exact pairwise_insertDescBy f y _ ih

/-- The head of a descending-sorted nonempty list bounds every member. -/
theorem sortDescBy_headD_ge {α : Type} (f : α → ℤ) (l : List α) (d : α)
    (a : α) (ha : a ∈ sortDescBy f l) :
    f a ≤ f ((sortDescBy f l).headD d) := by
  cases hs : sortDescBy f l with
  | nil => rw [hs] at ha; cases ha
  | cons b bs =>
      rw [hs] at ha
      have hp := pairwise_sortDescBy f l
      rw [hs] at hp
      rcases List.mem_cons.mp ha with rfl | ha
      · simp
      · simpa using List.rel_of_pairwise_cons hp ha

theorem sortDescBy_headD_mem {α : Type} (f : α → ℤ) (l : List α) (d : α)
    (hl : l ≠ []) : (sortDescBy f l).headD d ∈ l := by
  have hlen : (sortDescBy f l).length = l.length := length_sortDescBy f l
  cases hs : sortDescBy f l with
  | nil =>
      rw [hs] at hlen
      exact absurd (List.length_eq_zero.mp hlen.symm) hl
  | cons b bs =>
      have : b ∈ sortDescBy f l := by rw [hs]; exact List.mem_cons_self b bs
      simpa using (mem_sortDescBy f l b).mp this

/-- Last element of a list with a default, recursing structurally. -/
def lastD {α : Type} (d : α) : List α → α
  | [] => d
  | [a] => a
  | _ :: b :: rest => lastD d (b :: rest)

theorem lastD_mem {α : Type} (d : α) (l : List α) (hl : l ≠ []) :
    lastD d l ∈ l := by
  induction l with
  | nil => exact absurd rfl hl
  | cons a as ih =>
      cases as with
      | nil => simp [lastD]
      | cons b bs =>
          have hm := ih (by simp)
          have he : lastD d (a :: b :: bs) = lastD d (b :: bs) := rfl
          rw [he]
          exact List.mem_cons.mpr (Or.inr hm)

/-- The last element of a descending-sorted list is below every member. -/
theorem pairwise_lastD_le {α : Type} (f : α → ℤ) (d : α) (l : List α)
    (hp : l.Pairwise (fun a b => f b ≤ f a)) :
    ∀ a ∈ l, f (lastD d l) ≤ f a := by
  induction l with
  | nil => intro a ha; cases ha
  | cons b bs ih =>
      intro a ha
      cases bs with
      | nil =>
          rcases List.mem_cons.mp ha with rfl | h2
          · exact le_refl _
          · cases h2
      | cons c cs =>
          have hrel := (List.pairwise_cons.mp hp).1
          have hp2 := (List.pairwise_cons.mp hp).2
          have he : lastD d (b :: c :: cs) = lastD d (c :: cs) := rfl
          rw [he]
          rcases List.mem_cons.mp ha with rfl | h2
          · have hm : lastD d (c :: cs) ∈ c :: cs := lastD_mem d _ (by simp)
            exact hrel _ hm
          · exact ih hp2 a h2

theorem sortDescBy_lastD_le {α : Type} (f : α → ℤ) (l : List α) (d : α)
    (a : α) (ha : a ∈ l) :
    f (lastD d (sortDescBy f l)) ≤ f a :=
  pairwise_lastD_le f d _ (pairwise_sortDescBy f l)
    a ((mem_sortDescBy f l a).mpr ha)

theorem sortDescBy_lastD_mem {α : Type} (f : α → ℤ) (l : List α) (d : α)
    (hl : l ≠ []) : lastD d (sortDescBy f l) ∈ l := by
  have hne : sortDescBy f l ≠ [] := by
    intro h
    have hlen : (sortDescBy f l).length = l.length := length_sortDescBy f l
    rw [h] at hlen
    exact hl (List.length_eq_zero.mp hlen.symm)
  exact (mem_sortDescBy f l _).mp (lastD_mem d _ hne)

/-! ### Settlement Engine (`stats` in `SplitAnalysis.tsx`)

The JS record `data: Record<string, {paid, consumed}>` is embedded as a
key list (the object's own keys in insertion order) together with a
total valuation; a name outside `keys` carries the zero record, which
is what reading an absent key and then creating it with zeros yields. -/

/-- Running paid/consumed pair of one participant. -/
structure PersonStats where
  paid : ℚ
  consumed : ℚ
deriving DecidableEq

def emptyStats : PersonStats := ⟨0, 0⟩

/-- The settlement dictionary: insertion-ordered key list plus values. -/
structure SettleState where
  keys : List String
  stat : String → PersonStats

/-- `people.forEach(p => { data[p] = { paid: 0, consumed: 0 } })`. -/
def initState (people : List String) : SettleState :=
  people.foldl
    (fun st p =>
      { keys := if p ∈ st.keys then st.keys else st.keys ++ [p],
        stat := fun q => if q = p then emptyStats else st.stat q })
    ⟨[], fun _ => emptyStats⟩

/-- `if (!data[k]) data[k] = { paid: 0, consumed: 0 }`. -/
def ensurePerson (st : SettleState) (k : String) : SettleState :=
  if k ∈ st.keys then st
  else
    { keys := st.keys ++ [k],
      stat := fun q => if q = k then emptyStats else st.stat q }

/-- `data[k].paid += a`. -/
def addPaid (st : SettleState) (k : String) (a : ℚ) : SettleState :=
  { st with
    stat := fun q =>
      if q = k then ⟨(st.stat k).paid + a, (st.stat k).consumed⟩
      else st.stat q }

/-- `data[k].consumed += a`. -/
def addConsumed (st : SettleState) (k : String) (a : ℚ) : SettleState :=
  { st with
    stat := fun q =>
      if q = k then ⟨(st.stat k).paid, (st.stat k).consumed + a⟩
      else st.stat q }

/-- The body of `expenses.forEach` in `stats`: credit the payer, then
either split a "Shared" expense over all active people (each guarded by
`if (data[p])`) or charge the owner in full. -/
def applyExpense (people : List String) (st : SettleState) (e : Expense) :
    SettleState :=
  let st1 := ensurePerson st e.payer
  let st2 := addPaid st1 e.payer e.amount
  if e.owner = "Shared" then
    let split := e.amount / (people.length : ℚ)
    people.foldl
      (fun s p => if p ∈ s.keys then addConsumed s p split else s) st2
  else
    let st3 := ensurePerson st2 e.owner
    addConsumed st3 e.owner e.amount

/-- The settlement computation of `SplitAnalysis.tsx`. -/
def settle (expenses : List Expense) (people : List String) : SettleState :=
  expenses.foldl (applyExpense people) (initState people)

def paidOf (st : SettleState) (p : String) : ℚ := (st.stat p).paid

def consumedOf (st : SettleState) (p : String) : ℚ := (st.stat p).consumed

/-- `net = paid - consumed`, as built in the `result` record. -/
def netOf (st : SettleState) (p : String) : ℚ :=
  (st.stat p).paid - (st.stat p).consumed

/-! #### Invariants of the settlement state -/

/-- Names outside the key list carry the zero record. -/
def AbsentZero (st : SettleState) : Prop :=
  ∀ q, q ∉ st.keys → st.stat q = emptyStats

theorem initState_stat (people : List String) (q : String) :
    (initState people).stat q = emptyStats := by
  suffices h : ∀ (ps : List String) (st : SettleState),
      (∀ r, st.stat r = emptyStats) →
      ∀ r, (ps.foldl (fun st p =>
        ({ keys := if p ∈ st.keys then st.keys else st.keys ++ [p],
           stat := fun q => if q = p then emptyStats else st.stat q } :
           SettleState)) st).stat r = emptyStats by
    exact h people ⟨[], fun _ => emptyStats⟩ (fun _ => rfl) q
  intro ps
  induction ps with
  | nil => intro st h r; exact h r
  | cons p ps ih =>
      intro st h r
      refine ih _ ?_ r
      intro r2
      by_cases hr : r2 = p <;> simp [hr, h r2]

theorem initState_absentZero (people : List String) :
    AbsentZero (initState people) := by
  intro q _
  exact initState_stat people q

theorem ensurePerson_absentZero (st : SettleState) (k : String)
    (h : AbsentZero st) : AbsentZero (ensurePerson st k) := by
  unfold ensurePerson
  by_cases hk : k ∈ st.keys
  · simpa [hk]
  · simp only [hk, if_false]
    intro q hq
    simp only [List.mem_append, List.mem_singleton, not_or] at hq
    simp [hq.2, h q hq.1]

theorem ensurePerson_stat (st : SettleState) (k : String)
    (h : AbsentZero st) : (ensurePerson st k).stat = st.stat := by
  unfold ensurePerson
  by_cases hk : k ∈ st.keys
  · simp [hk]
  · simp only [hk, if_false]
    funext q
    by_cases hq : q = k
    · subst hq; simp [h q hk]
    · simp [hq]

theorem ensurePerson_mem (st : SettleState) (k : String) :
    k ∈ (ensurePerson st k).keys := by
  unfold ensurePerson
  by_cases hk : k ∈ st.keys <;> simp [hk]

theorem ensurePerson_keys_subset (st : SettleState) (k : String) :
    st.keys ⊆ (ensurePerson st k).keys := by
  unfold ensurePerson
  by_cases hk : k ∈ st.keys
  · simp [hk]
  · simp only [hk, if_false]
    intro a ha
    exact List.mem_append.mpr (Or.inl ha)

theorem ensurePerson_keys_nodup (st : SettleState) (k : String)
    (h : st.keys.Nodup) : (ensurePerson st k).keys.Nodup := by
  unfold ensurePerson
  by_cases hk : k ∈ st.keys
  · simpa [hk]
  · simp only [hk, if_false]
    simpa [List.nodup_append] using ⟨h, hk⟩

theorem addPaid_absentZero (st : SettleState) (k : String) (a : ℚ)
    (hk : k ∈ st.keys) (h : AbsentZero st) : AbsentZero (addPaid st k a) := by
  intro q hq
  unfold addPaid
  simp only
  have hqk : q ≠ k := fun he => hq (he ▸ hk)
  simp [hqk, h q hq]

theorem addConsumed_absentZero (st : SettleState) (k : String) (a : ℚ)
    (hk : k ∈ st.keys) (h : AbsentZero st) :
    AbsentZero (addConsumed st k a) := by
  intro q hq
  unfold addConsumed
  simp only
  have hqk : q ≠ k := fun he => hq (he ▸ hk)
  simp [hqk, h q hq]

/-- The shared-split pass (`people.foldl` inside `applyExpense`):
keys are untouched, paid is untouched, and each name gains
`count(in people, and in keys) * split` of consumption. -/
theorem sharedFold_spec (split : ℚ) :
    ∀ (people : List String) (st : SettleState),
      let res := people.foldl
        (fun s p => if p ∈ s.keys then addConsumed s p split else s) st
      res.keys = st.keys ∧
      (∀ q, (res.stat q).paid = (st.stat q).paid) ∧
      (∀ q, (res.stat q).consumed = (st.stat q).consumed +
        (if q ∈ st.keys then (people.count q : ℚ) * split else 0)) := by
  intro people
  induction people with
  | nil => intro st; exact ⟨rfl, fun _ => rfl, fun q => by simp⟩
  | cons p ps ih =>
      intro st
      simp only [List.foldl_cons]
      by_cases hp : p ∈ st.keys
      · simp only [hp, if_true]
        obtain ⟨hk, hpaid, hcons⟩ := ih (addConsumed st p split)
        have hkeys : (addConsumed st p split).keys = st.keys := rfl
        refine ⟨by rw [hk, hkeys], ?_, ?_⟩
        · intro q
          rw [hpaid q]
          unfold addConsumed
          by_cases hq : q = p <;> simp [hq]
        · intro q
          rw [hcons q, hkeys]
          unfold addConsumed
          by_cases hq : q = p
          · subst hq
            simp [hp, List.count_cons, add_mul, add_comm, add_assoc,
              add_left_comm]
          · by_cases hqk : q ∈ st.keys
            · simp [hq, hqk, List.count_cons, Ne.symm hq]
            · simp [hq, hqk]
      · simp only [hp, if_false]
        obtain ⟨hk, hpaid, hcons⟩ := ih st
        refine ⟨hk, hpaid, ?_⟩
        intro q
        rw [hcons q]
        by_cases hqk : q ∈ st.keys
        · have hqp : q ≠ p := fun he => hp (he ▸ hqk)
          simp [hqk, List.count_cons, Ne.symm hqp]
        · simp [hqk]

/-- Summing a pointwise bump at one key over a name list counts the
key's multiplicity. -/
theorem sum_map_update (P : List String) (f g : String → ℚ) (k : String)
    (a : ℚ) (h : ∀ q, g q = f q + if q = k then a else 0) :
    (P.map g).sum = (P.map f).sum + (P.count k : ℚ) * a := by
  induction P with
  | nil => simp
  | cons p ps ih =>
      simp only [List.map_cons, List.sum_cons, ih, h p, List.count_cons]
      by_cases hp : p = k
      · simp [hp, add_mul]; ring
      · have : ¬ k = p := fun he => hp he.symm
        simp [hp, this]; ring

theorem applyExpense_keys_subset (people : List String) (st : SettleState)
    (e : Expense) : st.keys ⊆ (applyExpense people st e).keys := by
  unfold applyExpense
  by_cases ho : e.owner = "Shared"
  · simp only [ho, if_true]
    obtain ⟨hk, _, _⟩ := sharedFold_spec (e.amount / (people.length : ℚ))
      people (addPaid (ensurePerson st e.payer) e.payer e.amount)
    rw [hk]
    exact ensurePerson_keys_subset st e.payer
  · simp only [ho, if_false]
    intro x hx
    exact ensurePerson_keys_subset _ e.owner
      (ensurePerson_keys_subset st e.payer hx)

theorem applyExpense_keys_nodup (people : List String) (st : SettleState)
    (e : Expense) (h : st.keys.Nodup) :
    (applyExpense people st e).keys.Nodup := by
  unfold applyExpense
  by_cases ho : e.owner = "Shared"
  · simp only [ho, if_true]
    obtain ⟨hk, _, _⟩ := sharedFold_spec (e.amount / (people.length : ℚ))
      people (addPaid (ensurePerson st e.payer) e.payer e.amount)
    rw [hk]
    exact ensurePerson_keys_nodup st e.payer h
  · simp only [ho, if_false]
    exact ensurePerson_keys_nodup _ e.owner (ensurePerson_keys_nodup st e.payer h)

theorem applyExpense_absentZero (people : List String) (st : SettleState)
    (e : Expense) (h : AbsentZero st) :
    AbsentZero (applyExpense people st e) := by
  unfold applyExpense
  have h1 : AbsentZero (ensurePerson st e.payer) :=
    ensurePerson_absentZero st e.payer h
  have h2 : AbsentZero (addPaid (ensurePerson st e.payer) e.payer e.amount) :=
    addPaid_absentZero _ _ _ (ensurePerson_mem st e.payer) h1
  by_cases ho : e.owner = "Shared"
  · simp only [ho, if_true]
    obtain ⟨hk, hpaid, hcons⟩ := sharedFold_spec
      (e.amount / (people.length : ℚ)) people
      (addPaid (ensurePerson st e.payer) e.payer e.amount)
    intro q hq
    rw [hk] at hq
    have hz := h2 q hq
    have hp := hpaid q
    have hc := hcons q
    rw [if_neg hq, add_zero] at hc
    rw [hz] at hp hc
    cases hres : (people.foldl (fun s p =>
      if p ∈ s.keys then addConsumed s p (e.amount / (people.length : ℚ))
      else s) (addPaid (ensurePerson st e.payer) e.payer e.amount)).stat q
    rw [hres] at hp hc
    simp only at hp hc
    simp_all [emptyStats]
  · simp only [ho, if_false]
    have h3 : AbsentZero (ensurePerson
        (addPaid (ensurePerson st e.payer) e.payer e.amount) e.owner) :=
      ensurePerson_absentZero _ e.owner h2
    exact addConsumed_absentZero _ _ _ (ensurePerson_mem _ e.owner) h3

theorem sum_map_sub_const (P : List String) (f : String → ℚ) (c : ℚ) :
    (P.map (fun p => f p - c)).sum = (P.map f).sum - (P.length : ℚ) * c := by
  induction P with
  | nil => simp
  | cons p ps ih =>
      simp only [List.map_cons, List.sum_cons, List.length_cons, ih]
      push_cast; ring

/-- One expense leaves the sum of `paid - consumed` over a duplicate-free
participant list `P` unchanged, provided its payer is in `P` and its
owner is in `P` or "Shared", and the settlement is run with `P` itself
as the active people. -/
theorem applyExpense_netSum (P : List String) (st : SettleState) (e : Expense)
    (hnd : P.Nodup) (hsub : ∀ p ∈ P, p ∈ st.keys)
    (hpay : e.payer ∈ P) (hown : e.owner ∈ P ∨ e.owner = "Shared") :
    (P.map (fun p => ((applyExpense P st e).stat p).paid -
        ((applyExpense P st e).stat p).consumed)).sum
      = (P.map (fun p => (st.stat p).paid - (st.stat p).consumed)).sum := by
  have hpayk : e.payer ∈ st.keys := hsub _ hpay
  have hst1 : ensurePerson st e.payer = st := by
    unfold ensurePerson; simp [hpayk]
  have hcount : P.count e.payer = 1 :=
    List.count_eq_one_of_mem hnd hpay
  have hsum2 : (P.map (fun p =>
      ((addPaid st e.payer e.amount).stat p).paid -
      ((addPaid st e.payer e.amount).stat p).consumed)).sum
      = (P.map (fun p => (st.stat p).paid - (st.stat p).consumed)).sum
        + e.amount := by
    have := sum_map_update P
      (fun p => (st.stat p).paid - (st.stat p).consumed)
      (fun p => ((addPaid st e.payer e.amount).stat p).paid -
        ((addPaid st e.payer e.amount).stat p).consumed)
      e.payer e.amount ?_
    · rw [this, hcount]; push_cast; ring
    · intro q
      unfold addPaid
      by_cases hq : q = e.payer
      · simp [hq]; ring
      · simp [hq]
  unfold applyExpense
  rw [hst1]
  by_cases ho : e.owner = "Shared"
  · simp only [ho, if_true]
    obtain ⟨hk, hpaid, hcons⟩ := sharedFold_spec
      (e.amount / (P.length : ℚ)) P (addPaid st e.payer e.amount)
    have hkeys2 : (addPaid st e.payer e.amount).keys = st.keys := rfl
    have hPne : P ≠ [] := List.ne_nil_of_mem hpay
    have hlen : (P.length : ℚ) ≠ 0 := by
      have : P.length ≠ 0 := fun hc => hPne (List.length_eq_zero.mp hc)
      exact_mod_cast this
    have hmapeq : ∀ p ∈ P,
        ((P.foldl (fun s p => if p ∈ s.keys then
            addConsumed s p (e.amount / (P.length : ℚ)) else s)
          (addPaid st e.payer e.amount)).stat p).paid -
        ((P.foldl (fun s p => if p ∈ s.keys then
            addConsumed s p (e.amount / (P.length : ℚ)) else s)
          (addPaid st e.payer e.amount)).stat p).consumed
        = (((addPaid st e.payer e.amount).stat p).paid -
           ((addPaid st e.payer e.amount).stat p).consumed)
          - e.amount / (P.length : ℚ) := by
      intro p hp
      rw [hpaid p, hcons p, hkeys2, if_pos (hsub p hp),
        List.count_eq_one_of_mem hnd hp]
      push_cast; ring
    rw [List.map_congr_left hmapeq,
      sum_map_sub_const P
        (fun p => ((addPaid st e.payer e.amount).stat p).paid -
          ((addPaid st e.payer e.amount).stat p).consumed)
        (e.amount / (P.length : ℚ)),
      hsum2]
    field_simp
  · simp only [ho, if_false]
    have howk : e.owner ∈ P := hown.resolve_right ho
    have hst3 : ensurePerson (addPaid st e.payer e.amount) e.owner
        = addPaid st e.payer e.amount := by
      unfold ensurePerson
      have : e.owner ∈ (addPaid st e.payer e.amount).keys := hsub _ howk
      simp [this]
    rw [hst3]
    have hcount2 : P.count e.owner = 1 :=
      List.count_eq_one_of_mem hnd howk
    have := sum_map_update P
      (fun p => ((addPaid st e.payer e.amount).stat p).paid -
        ((addPaid st e.payer e.amount).stat p).consumed)
      (fun p => ((addConsumed (addPaid st e.payer e.amount) e.owner
          e.amount).stat p).paid -
        ((addConsumed (addPaid st e.payer e.amount) e.owner
          e.amount).stat p).consumed)
      e.owner (-e.amount) ?_
    · rw [this, hsum2, hcount2]; push_cast; ring
    · intro q
      unfold addConsumed
      by_cases hq : q = e.owner
      · simp [hq]; ring
      · simp [hq]

theorem initState_mem (people : List String) (p : String) (hp : p ∈ people) :
    p ∈ (initState people).keys := by
  suffices h : ∀ (ps : List String) (st : SettleState),
      p ∈ ps ∨ p ∈ st.keys →
      p ∈ (ps.foldl (fun st p =>
        ({ keys := if p ∈ st.keys then st.keys else st.keys ++ [p],
           stat := fun q => if q = p then emptyStats else st.stat q } :
           SettleState)) st).keys by
    exact h people ⟨[], fun _ => emptyStats⟩ (Or.inl hp)
  intro ps
  induction ps with
  | nil =>
      intro st h
      rcases h with h | h
      · cases h
      · exact h
  | cons r rs ih =>
      intro st h
      simp only [List.foldl_cons]
      apply ih
      rcases h with h | h
      · rcases List.mem_cons.mp h with rfl | h2
        · right
          by_cases hr : p ∈ st.keys <;> simp [hr]
        · exact Or.inl h2
      · right
        by_cases hr : r ∈ st.keys <;> simp [hr, h]

theorem initState_keys_nodup (people : List String) :
    (initState people).keys.Nodup := by
  suffices h : ∀ (ps : List String) (st : SettleState),
      st.keys.Nodup →
      (ps.foldl (fun st p =>
        ({ keys := if p ∈ st.keys then st.keys else st.keys ++ [p],
           stat := fun q => if q = p then emptyStats else st.stat q } :
           SettleState)) st).keys.Nodup by
    exact h people ⟨[], fun _ => emptyStats⟩ List.nodup_nil
  intro ps
  induction ps with
  | nil => intro st h; exact h
  | cons r rs ih =>
      intro st h
      simp only [List.foldl_cons]
      apply ih
      by_cases hr : r ∈ st.keys
      · simpa [hr]
      · simp only [hr, if_false]
        simpa [List.nodup_append] using ⟨h, hr⟩

/-- C1 (amended), fold form: the running sum of `paid - consumed` over
`P` is preserved across the expense pass. -/
theorem foldl_netSum (P : List String) (hnd : P.Nodup) :
    ∀ (es : List Expense) (st : SettleState),
      (∀ p ∈ P, p ∈ st.keys) →
      (∀ e ∈ es, e.payer ∈ P) →
      (∀ e ∈ es, e.owner ∈ P ∨ e.owner = "Shared") →
      (P.map (fun p => ((es.foldl (applyExpense P) st).stat p).paid -
          ((es.foldl (applyExpense P) st).stat p).consumed)).sum
        = (P.map (fun p => (st.stat p).paid - (st.stat p).consumed)).sum := by
  intro es
  induction es with
  | nil => intro st _ _ _; rfl
  | cons e es ih =>
      intro st hsub hpay hown
      simp only [List.foldl_cons]
      rw [ih (applyExpense P st e)
        (fun p hp => applyExpense_keys_subset P st e (hsub p hp))
        (fun e2 h2 => hpay e2 (List.mem_cons_of_mem e h2))
        (fun e2 h2 => hown e2 (List.mem_cons_of_mem e h2))]
      exact applyExpense_netSum P st e hnd hsub
        (hpay e (List.mem_cons_self e es))
        (hown e (List.mem_cons_self e es))

/-- C1 (amended): when each expense's payer lies in the duplicate-free
participant list `P` and each owner lies in `P` or is "Shared", the
net balances of `P` sum to exactly zero. -/
theorem c1_settlement_zero_sum (es : List Expense) (P : List String)
    (hnd : P.Nodup)
    (hpay : ∀ e ∈ es, e.payer ∈ P)
    (hown : ∀ e ∈ es, e.owner ∈ P ∨ e.owner = "Shared") :
    (P.map (netOf (settle es P))).sum = 0 := by
  unfold settle netOf
  rw [foldl_netSum P hnd es (initState P)
    (fun p hp => initState_mem P p hp) hpay hown]
  have : ∀ p ∈ P, ((initState P).stat p).paid -
      ((initState P).stat p).consumed = (fun _ => (0 : ℚ)) p := by
    intro p _
    rw [initState_stat]
    simp [emptyStats]
  rw [List.map_congr_left this]
  simp

/-- Expenses of the running examples. -/
def mkExp (id desc : String) (amount : ℚ) (day : ℤ) (cat : Category)
    (store payer owner : String) : Expense :=
  ⟨id, desc, amount, "", day * msPerDay, cat, store, payer, owner, none⟩

/-- C1 witness instance: the worked settlement example of the spec. -/
def esC1 : List Expense :=
  [mkExp "1" "a" 10 0 .other "S" "Me" "Shared",
   mkExp "2" "b" 20 1 .other "S" "Partner" "Me"]

/-- C1 witness: the zero-sum theorem applied to the spec's two-expense
example with participants Me and Partner. -/
theorem c1_settlement_zero_sum_witness :
    (["Me", "Partner"].Nodup ∧
      (∀ e ∈ esC1, e.payer ∈ ["Me", "Partner"]) ∧
      (∀ e ∈ esC1, e.owner ∈ ["Me", "Partner"] ∨ e.owner = "Shared")) ∧
    ((["Me", "Partner"]).map (netOf (settle esC1 ["Me", "Partner"]))).sum
      = 0 :=
  ⟨⟨by decide, by decide, by decide⟩,
   c1_settlement_zero_sum esC1 ["Me", "Partner"]
     (by decide) (by decide) (by decide)⟩

/-- C1 counterexample input: a payer outside the participant list. -/
def esC1x : List Expense := [mkExp "1" "a" 10 0 .other "S" "B" "A"]

/-- C1 counterexample: with participants `P = ["A"]` and one expense
whose owner "A" is in `P` but whose payer "B" is not, the sum of net
balances over `P` is -10, far outside the 0.01 epsilon — the claim's
zero-sum statement fails without a condition on payers. -/
theorem c1_counterexample :
    ¬ |((["A"]).map (netOf (settle esC1x ["A"]))).sum| < 1 / 100 := by
  simp [esC1x, mkExp, settle, applyExpense, ensurePerson, addPaid,
    addConsumed, initState, netOf, emptyStats]
  norm_num

/-- C2: the settlement example — participants [Me, Partner], expenses
[{amount 10, payer Me, owner Shared}, {amount 20, payer Partner,
owner Me}] yield paid = {Me: 10, Partner: 20}, consumed =
{Me: 25, Partner: 5}, net = {Me: -15, Partner: 15}, computed by the
initialize/credit-payer/split-or-charge-owner pass of `settle`. -/
theorem c2_settlement_example :
    paidOf (settle esC1 ["Me", "Partner"]) "Me" = 10 ∧
    paidOf (settle esC1 ["Me", "Partner"]) "Partner" = 20 ∧
    consumedOf (settle esC1 ["Me", "Partner"]) "Me" = 25 ∧
    consumedOf (settle esC1 ["Me", "Partner"]) "Partner" = 5 ∧
    netOf (settle esC1 ["Me", "Partner"]) "Me" = -15 ∧
    netOf (settle esC1 ["Me", "Partner"]) "Partner" = 15 ∧
    (settle esC1 ["Me", "Partner"]).keys = ["Me", "Partner"] := by
  simp [esC1, mkExp, settle, applyExpense, ensurePerson, addPaid,
    addConsumed, initState, paidOf, consumedOf, netOf, emptyStats]
  norm_num

/-- C8, fold form with an empty people list: consumption only ever
grows by specifically-owned amounts; shared expenses add nothing. -/
theorem foldl_consumed_nil :
    ∀ (es : List Expense) (st : SettleState), AbsentZero st →
      ∀ q, ((es.foldl (applyExpense []) st).stat q).consumed
        = (st.stat q).consumed +
          (es.map (fun e =>
            if e.owner = q ∧ e.owner ≠ "Shared" then e.amount else 0)).sum := by
  intro es
  induction es with
  | nil => intro st _ q; simp
  | cons e es ih =>
      intro st habs q
      simp only [List.foldl_cons, List.map_cons, List.sum_cons]
      rw [ih (applyExpense [] st e) (applyExpense_absentZero [] st e habs) q]
      have hstep : ((applyExpense [] st e).stat q).consumed
          = (st.stat q).consumed +
            (if e.owner = q ∧ e.owner ≠ "Shared" then e.amount else 0) := by
        unfold applyExpense
        have hs1 : (ensurePerson st e.payer).stat = st.stat :=
          ensurePerson_stat st e.payer habs
        have hs2 : ∀ r, ((addPaid (ensurePerson st e.payer) e.payer
            e.amount).stat r).consumed = (st.stat r).consumed := by
          intro r
          unfold addPaid
          by_cases hr : r = e.payer <;> simp [hr, hs1]
        by_cases ho : e.owner = "Shared"
        · simp only [ho, if_true, List.foldl_nil]
          rw [hs2 q]
          by_cases hq : ("Shared" : String) = q
          · simp [ho, hq]
          · simp [ho, hq]
        · simp only [ho, if_false]
          have habs2 : AbsentZero (addPaid (ensurePerson st e.payer)
              e.payer e.amount) :=
            addPaid_absentZero _ _ _ (ensurePerson_mem st e.payer)
              (ensurePerson_absentZero st e.payer habs)
          have hs3 : (ensurePerson (addPaid (ensurePerson st e.payer)
              e.payer e.amount) e.owner).stat
              = (addPaid (ensurePerson st e.payer) e.payer e.amount).stat :=
            ensurePerson_stat _ e.owner habs2
          unfold addConsumed
          by_cases hq : q = e.owner
          · subst hq
            simp [hs3, hs2, ho]
          · have : ¬ (e.owner = q ∧ e.owner ≠ "Shared") := by
              intro hc
              exact hq hc.1.symm
            simp [hq, hs3, hs2, this]
      rw [hstep]
      ring

/-- C8: with an empty active-participant list, the settlement is still a
well-defined total result, and every "Shared" expense contributes zero
consumption to every name: each name's consumption is exactly the sum
of the amounts specifically owned by it.  (In the source the unused
`e.amount / people.length` is computed but never added, because the
people loop that would add it iterates zero times.) -/
theorem c8_empty_people_guard (es : List Expense)
    (_hsh : ∃ e ∈ es, e.owner = "Shared") :
    ∀ q, consumedOf (settle es []) q
      = (es.map (fun e =>
          if e.owner = q ∧ e.owner ≠ "Shared" then e.amount else 0)).sum := by
  intro q
  unfold settle consumedOf
  rw [foldl_consumed_nil es (initState []) (initState_absentZero []) q]
  rw [initState_stat]
  simp [emptyStats]

/-- C8 witness input: a single shared expense. -/
def esC8 : List Expense := [mkExp "1" "a" 10 0 .other "S" "A" "Shared"]

/-- C8 witness: one shared expense, no active participants — the
settlement reports zero consumption. -/
theorem c8_empty_people_guard_witness :
    (∃ e ∈ esC8, e.owner = "Shared") ∧
    consumedOf (settle esC8 []) "A"
      = (esC8.map (fun e =>
          if e.owner = "A" ∧ e.owner ≠ "Shared" then e.amount else 0)).sum :=
  ⟨by decide, c8_empty_people_guard esC8 (by decide) "A"⟩

theorem ensurePerson_paidSum (s : SettleState) (k : String) :
    ((ensurePerson s k).keys.map
      (fun r => ((ensurePerson s k).stat r).paid)).sum
    = (s.keys.map (fun r => (s.stat r).paid)).sum := by
  unfold ensurePerson
  by_cases hk : k ∈ s.keys
  · simp [hk]
  · simp only [hk, if_false]
    rw [List.map_append, List.sum_append]
    have hcong : ∀ r ∈ s.keys,
        (if r = k then emptyStats else s.stat r).paid = (s.stat r).paid := by
      intro r hrs
      have hne : r ≠ k := fun he => hk (he ▸ hrs)
      simp [hne]
    rw [List.map_congr_left hcong]
    simp [emptyStats]

theorem addPaid_paidSum (s : SettleState) (k : String) (a : ℚ)
    (hk : k ∈ s.keys) (hnd : s.keys.Nodup) :
    ((addPaid s k a).keys.map (fun r => ((addPaid s k a).stat r).paid)).sum
    = (s.keys.map (fun r => (s.stat r).paid)).sum + a := by
  have hc : s.keys.count k = 1 := List.count_eq_one_of_mem hnd hk
  have hupd := sum_map_update s.keys
    (fun r => (s.stat r).paid)
    (fun r => ((addPaid s k a).stat r).paid) k a ?_
  · have hkeq : (addPaid s k a).keys = s.keys := rfl
    rw [hkeq, hupd, hc]
    push_cast; ring
  · intro q
    unfold addPaid
    by_cases hq : q = k <;> simp [hq]

theorem addConsumed_paidSum (s : SettleState) (k : String) (a : ℚ) :
    ((addConsumed s k a).keys.map
      (fun r => ((addConsumed s k a).stat r).paid)).sum
    = (s.keys.map (fun r => (s.stat r).paid)).sum := by
  have hkeq : (addConsumed s k a).keys = s.keys := rfl
  rw [hkeq]
  apply congrArg
  apply List.map_congr_left
  intro r _
  unfold addConsumed
  by_cases hr : r = k <;> simp [hr]

/-- A single expense adds its amount to the sum of `paid` over the
state's keys, whatever the people list. -/
theorem applyExpense_paidSum (people : List String) (st : SettleState)
    (e : Expense) (hnd : st.keys.Nodup) :
    ((applyExpense people st e).keys.map
      (fun k => ((applyExpense people st e).stat k).paid)).sum
    = (st.keys.map (fun k => (st.stat k).paid)).sum + e.amount := by
  have haddp : ((addPaid (ensurePerson st e.payer) e.payer
      e.amount).keys.map (fun k => ((addPaid (ensurePerson st e.payer)
      e.payer e.amount).stat k).paid)).sum
      = (st.keys.map (fun k => (st.stat k).paid)).sum + e.amount := by
    rw [addPaid_paidSum _ _ _ (ensurePerson_mem st e.payer)
      (ensurePerson_keys_nodup st e.payer hnd), ensurePerson_paidSum]
  unfold applyExpense
  by_cases ho : e.owner = "Shared"
  · simp only [ho, if_true]
    obtain ⟨hk, hpaid, _⟩ := sharedFold_spec
      (e.amount / (people.length : ℚ)) people
      (addPaid (ensurePerson st e.payer) e.payer e.amount)
    rw [hk, List.map_congr_left (fun k _ => hpaid k)]
    exact haddp
  · simp only [ho, if_false]
    rw [addConsumed_paidSum, ensurePerson_paidSum]
    exact haddp

/-- C10, fold form: each expense adds its amount to the sum of `paid`
over the state's keys. -/
theorem foldl_paidSum (people : List String) :
    ∀ (es : List Expense) (st : SettleState), st.keys.Nodup →
      ((es.foldl (applyExpense people) st).keys.map
        (fun k => ((es.foldl (applyExpense people) st).stat k).paid)).sum
      = (st.keys.map (fun k => (st.stat k).paid)).sum
        + (es.map (fun e => e.amount)).sum := by
  intro es
  induction es with
  | nil => intro st _; simp
  | cons e es ih =>
      intro st hnd
      simp only [List.foldl_cons, List.map_cons, List.sum_cons]
      rw [ih (applyExpense people st e)
        (applyExpense_keys_nodup people st e hnd),
        applyExpense_paidSum people st e hnd]
      ring

/-- C10: the sum of `paid` over all entries of the settlement result
equals the sum of all expense amounts — every expense is credited to
exactly one payer entry, with no precondition on payers or owners. -/
theorem c10_paid_conservation (es : List Expense) (people : List String) :
    ((settle es people).keys.map (paidOf (settle es people))).sum
      = (es.map (fun e => e.amount)).sum := by
  unfold settle paidOf
  rw [foldl_paidSum people es (initState people) (initState_keys_nodup people)]
  have : ∀ k ∈ (initState people).keys,
      ((initState people).stat k).paid = (fun _ => (0 : ℚ)) k := by
    intro k _
    rw [initState_stat]
    rfl
  rw [List.map_congr_left this]
  simp

/-! ### Replenishment Predictor (`itemStats` in `ShelfLifeInsights`)

JS string normalization (`trim`, `toLowerCase`) is embedded by explicit
character-list functions so that every definition evaluates by kernel
reduction; they agree with JS on ASCII text. -/

/-- ASCII lower-casing of one character (JS `toLowerCase` on ASCII). -/
def lowerChar (c : Char) : Char :=
  if 'A' ≤ c ∧ c ≤ 'Z' then Char.ofNat (c.toNat + 32) else c

/-- JS `String.prototype.toLowerCase` (ASCII fragment). -/
def strLower (s : String) : String := ⟨s.data.map lowerChar⟩

/-- Whitespace stripped by JS `String.prototype.trim`. -/
def isSpaceChar (c : Char) : Bool :=
  c == ' ' || c == '\t' || c == '\n' || c == '\r'

/-- JS `String.prototype.trim`. -/
def strTrim (s : String) : String :=
  ⟨((s.data.dropWhile isSpaceChar).reverse.dropWhile isSpaceChar).reverse⟩

/-- The grouping key `e.description.trim().toLowerCase()`. -/
def normKey (e : Expense) : String := strLower (strTrim e.description)

/-- One group of the `items` record: pushed purchase times in arrival
order, the first member's category, and the display name. -/
structure ItemGroup where
  dates : List ℤ
  category : Category
  name : String
deriving DecidableEq

/-- Push one expense into its group: append the date, then rename when
the new date exceeds `dates[0]` (the first pushed date) — the source's
"keep the most recent casing" update compares against `dates[0]`. -/
def updateGroup (g : ItemGroup) (e : Expense) : ItemGroup :=
  let dates := g.dates ++ [e.dateTime]
  { dates := dates,
    category := g.category,
    name := if dates.headD 0 < e.dateTime then e.description else g.name }

/-- The grouping loop body shared by `ShelfLifeInsights` and
`StorePlanner`: create the entry on first sight, then push. -/
def groupStep (gs : List (String × ItemGroup)) (e : Expense) :
    List (String × ItemGroup) :=
  let k := normKey e
  match alGet gs k with
  | some _ => alModify gs k (fun g => updateGroup g e)
  | none => gs ++ [(k, updateGroup ⟨[], e.category, e.description⟩ e)]

/-- Group all expenses by normalized description. -/
def groupItems (es : List Expense) : List (String × ItemGroup) :=
  es.foldl groupStep []

/-- Sum of adjacent differences, the `totalDays` loop over the
descending-sorted dates. -/
def adjGaps : List ℤ → ℤ
  | a :: b :: rest => (a - b) + adjGaps (b :: rest)
  | _ => 0

/-- `.sort((a, b) => new Date(b).getTime() - new Date(a).getTime())`. -/
def sortDesc (l : List ℤ) : List ℤ := sortDescBy (fun x => x) l

/-- The `SHELF_LIFE_DAYS` table of `ShelfLifeInsights`; the `|| 14`
fallback of the source only fires for keys outside the closed enum,
which the embedding's total match does not admit. -/
def shelfLifeDays : Category → ℤ
  | .vegetables => 7
  | .fruits => 7
  | .meatSeafood => 3
  | .dairyEggs => 14
  | .bakery => 5
  | .pantry => 90
  | .frozen => 30
  | .snacks => 21
  | .beverages => 14
  | .alcohol => 365
  | .deli => 4
  | .baby => 14
  | .pet => 30
  | .household => 60
  | .personalCare => 45
  | .other => 14

/-- Replenishment status values of the `ItemStat` union type. -/
inductive Status where
  | stockUp
  | runningLow
  | good
  | likelyExpired
  | unknown
deriving DecidableEq

/-- One row of the predictor output (`ItemStat`). -/
structure ItemStat where
  name : String
  category : Category
  lastPurchased : ℤ
  daysSinceLastPurchase : ℤ
  avgCycle : Option ℤ
  purchaseCount : ℕ
  genericShelfLife : ℤ
  status : Status
deriving DecidableEq

/-- Per-group statistics and classification of `ShelfLifeInsights`:
sort dates descending, take `daysSince` as the floored day difference
to the newest, average the adjacent gaps when there are at least two
purchases, and classify with the 0.8 (cycle) / 0.9 (shelf-life)
thresholds of the source. -/
def mkStat (g : ItemGroup) (now : ℤ) : ItemStat :=
  let sorted := sortDesc g.dates
  let lastDate := sorted.headD 0
  let daysSince := Int.fdiv (now - lastDate) msPerDay
  let avgCycle : Option ℤ :=
    if 2 ≤ sorted.length then
      some (round ((((adjGaps sorted : ℤ) : ℚ) / ((sorted.length : ℚ) - 1))
        / (msPerDay : ℚ)))
    else none
  let shelf := shelfLifeDays g.category
  let status : Status :=
    match avgCycle with
    | some c =>
        if c ≤ daysSince then .stockUp
        else if (c : ℚ) * (4 / 5) ≤ (daysSince : ℚ) then .runningLow
        else .good
    | none =>
        if shelf ≤ daysSince then .stockUp
        else if (shelf : ℚ) * (9 / 10) ≤ (daysSince : ℚ) then .runningLow
        else .good
  { name := g.name, category := g.category, lastPurchased := lastDate,
    daysSinceLastPurchase := daysSince, avgCycle := avgCycle,
    purchaseCount := sorted.length, genericShelfLife := shelf,
    status := status }

/-- The predictor output rows, one per group (the component then sorts
them by urgency for display, which no claim depends on). -/
def itemStats (es : List Expense) (now : ℤ) : List ItemStat :=
  (groupItems es).map (fun kg => mkStat kg.2 now)

/-- Membership of a status in the derived shopping list
(`status === 'Stock Up' || status === 'Running Low'`). -/
def neededStatus : Status → Bool
  | .stockUp => true
  | .runningLow => true
  | _ => false

/-- The `isNeeded` computation of `StorePlanner` (its own copy of the
classification): threshold `0.9 * avgCycle` when the cycle is known,
`0.9 * shelfLife` otherwise. -/
def plannerNeeded (g : ItemGroup) (now : ℤ) : Bool :=
  let sorted := sortDesc g.dates
  let lastDate := sorted.headD 0
  let daysSince := Int.fdiv (now - lastDate) msPerDay
  let avgCycle : Option ℤ :=
    if 2 ≤ sorted.length then
      some (round ((((adjGaps sorted : ℤ) : ℚ) / ((sorted.length : ℚ) - 1))
        / (msPerDay : ℚ)))
    else none
  let shelf := shelfLifeDays g.category
  match avgCycle with
  | some c => decide ((c : ℚ) * (9 / 10) ≤ (daysSince : ℚ))
  | none => decide ((shelf : ℚ) * (9 / 10) ≤ (daysSince : ℚ))

/-! #### Association-list facts -/

theorem alGet_none_iff {α : Type} (l : List (String × α)) (k : String) :
    alGet l k = none ↔ k ∉ l.map Prod.fst := by
  induction l with
  | nil => simp [alGet]
  | cons kv rest ih =>
      by_cases hk : kv.1 = k
      · simp [alGet, hk]
      · simp only [alGet, hk, if_false, List.map_cons, List.mem_cons]
        rw [ih]
        constructor
        · intro h hc
          rcases hc with hc | hc
          · exact hk hc.symm
          · exact h hc
        · intro h hc
          exact h (Or.inr hc)

theorem alGet_mem {α : Type} (l : List (String × α)) (k : String) (v : α)
    (h : alGet l k = some v) : (k, v) ∈ l := by
  induction l with
  | nil => simp [alGet] at h
  | cons kv rest ih =>
      obtain ⟨k1, v1⟩ := kv
      by_cases hk : k1 = k
      · rw [alGet, if_pos hk] at h
        subst hk
        rw [Option.some_inj] at h
        subst h
        exact List.mem_cons_self _ _
      · rw [alGet, if_neg hk] at h
        exact List.mem_cons_of_mem _ (ih h)

theorem alModify_keys {α : Type} (l : List (String × α)) (k : String)
    (f : α → α) : (alModify l k f).map Prod.fst = l.map Prod.fst := by
  induction l with
  | nil => rfl
  | cons kv rest ih =>
      by_cases hk : kv.1 = k <;> simp [alModify, hk] at ih ⊢ <;> exact ih

theorem mem_alModify {α : Type} (l : List (String × α)) (k : String)
    (f : α → α) (p : String × α) (hp : p ∈ alModify l k f) :
    (p.1 ≠ k ∧ p ∈ l) ∨ (p.1 = k ∧ ∃ v, (k, v) ∈ l ∧ p.2 = f v) := by
  induction l with
  | nil => simp [alModify] at hp
  | cons kv rest ih =>
      obtain ⟨k1, v1⟩ := kv
      simp only [alModify, List.map_cons, List.mem_cons] at hp
      rcases hp with hp | hp
      · by_cases hk : k1 = k
        · rw [if_pos hk] at hp
          subst hk
          right
          exact ⟨by rw [hp], v1, List.mem_cons_self _ _, by rw [hp]⟩
        · rw [if_neg hk] at hp
          left
          exact ⟨by rw [hp]; exact hk,
            List.mem_cons.mpr (Or.inl (by rw [hp]))⟩
      · rcases ih hp with ⟨h1, h2⟩ | ⟨h1, v, hv, he⟩
        · exact Or.inl ⟨h1, List.mem_cons_of_mem _ h2⟩
        · exact Or.inr ⟨h1, v, List.mem_cons_of_mem _ hv, he⟩

theorem alModify_mem_self {α : Type} (l : List (String × α)) (k : String)
    (f : α → α) (v : α) (h : (k, v) ∈ l) : (k, f v) ∈ alModify l k f := by
  induction l with
  | nil => cases h
  | cons kv rest ih =>
      rcases List.mem_cons.mp h with rfl | h2
      · simp [alModify]
      · exact List.mem_cons_of_mem _ (ih h2)

theorem exists_mem_iff_key {α : Type} (l : List (String × α)) (k : String) :
    (∃ v, (k, v) ∈ l) ↔ k ∈ l.map Prod.fst := by
  constructor
  · rintro ⟨v, hv⟩
    exact List.mem_map.mpr ⟨(k, v), hv, rfl⟩
  · intro h
    rcases List.mem_map.mp h with ⟨⟨k2, v⟩, hm, he⟩
    simp only at he
    subst he
    exact ⟨v, hm⟩

/-! #### Grouping invariant -/

/-- Fold invariant of the grouping pass: keys stay duplicate-free, each
group's pushed dates are exactly the date-times of the matching
expenses processed so far (in order), and a group exists exactly for
the keys seen so far. -/
theorem groupItems_inv :
    ∀ (rest pre : List Expense) (acc : List (String × ItemGroup)),
      (acc.map Prod.fst).Nodup →
      (∀ k g, (k, g) ∈ acc →
        g.dates = ((pre.filter (fun e => normKey e == k)).map
          (fun e => e.dateTime))) →
      (∀ k, (∃ g, (k, g) ∈ acc) ↔ ∃ e ∈ pre, normKey e = k) →
      ((rest.foldl groupStep acc).map Prod.fst).Nodup ∧
      (∀ k g, (k, g) ∈ rest.foldl groupStep acc →
        g.dates = (((pre ++ rest).filter (fun e => normKey e == k)).map
          (fun e => e.dateTime))) ∧
      (∀ k, (∃ g, (k, g) ∈ rest.foldl groupStep acc) ↔
        ∃ e ∈ pre ++ rest, normKey e = k) := by
  intro rest
  induction rest with
  | nil =>
      intro pre acc h1 h2 h3
      simpa using ⟨h1, h2, h3⟩
  | cons e rest ih =>
      intro pre acc h1 h2 h3
      have hstep :
          ((groupStep acc e).map Prod.fst).Nodup ∧
          (∀ k g, (k, g) ∈ groupStep acc e →
            g.dates = (((pre ++ [e]).filter (fun e2 => normKey e2 == k)).map
              (fun e2 => e2.dateTime))) ∧
          (∀ k, (∃ g, (k, g) ∈ groupStep acc e) ↔
            ∃ e2 ∈ pre ++ [e], normKey e2 = k) := by
        unfold groupStep
        cases hget : alGet acc (normKey e) with
        | some g0 =>
            simp only [hget]
            refine ⟨by rw [alModify_keys]; exact h1, ?_, ?_⟩
            · intro k g hg
              rcases mem_alModify acc (normKey e) _ (k, g) hg with
                ⟨hne, hmem⟩ | ⟨heq, v, hv, hval⟩
              · simp only at hne
                rw [h2 k g hmem, List.filter_append]
                have hbf : (normKey e == k) = false :=
                  beq_eq_false_iff_ne.mpr (fun hc => hne hc.symm)
                simp [hbf]
              · simp only at heq hval
                subst heq
                rw [hval]
                have hv2 := h2 _ v hv
                unfold updateGroup
                simp only
                rw [hv2, List.filter_append]
                simp
            · intro k
              rw [exists_mem_iff_key, alModify_keys, ← exists_mem_iff_key,
                h3 k]
              constructor
              · rintro ⟨e2, hm, hk⟩
                exact ⟨e2, List.mem_append.mpr (Or.inl hm), hk⟩
              · rintro ⟨e2, hm, hk⟩
                rcases List.mem_append.mp hm with hm | hm
                · exact ⟨e2, hm, hk⟩
                · have he2 : e2 = e := by simpa using hm
                  subst he2
                  subst hk
                  exact (h3 (normKey e2)).mp ⟨g0, alGet_mem _ _ _ hget⟩
        | none =>
            simp only [hget]
            have hknot : normKey e ∉ acc.map Prod.fst :=
              (alGet_none_iff acc (normKey e)).mp hget
            refine ⟨?_, ?_, ?_⟩
            · rw [List.map_append]
              refine List.nodup_append.mpr ⟨h1, by simp, ?_⟩
              intro a ha hb
              have hak : a = normKey e := by simpa using hb
              subst hak
              exact hknot ha
            · intro k g hg
              rcases List.mem_append.mp hg with hm | hm
              · have hkk : k ∈ acc.map Prod.fst :=
                  (exists_mem_iff_key acc k).mp ⟨g, hm⟩
                have hne : normKey e ≠ k := fun hc => hknot (hc ▸ hkk)
                rw [h2 k g hm, List.filter_append]
                have hbf : (normKey e == k) = false :=
                  beq_eq_false_iff_ne.mpr hne
                simp [hbf]
              · have hp : (k, g) = (normKey e,
                    updateGroup ⟨[], e.category, e.description⟩ e) := by
                  simpa using hm
                have hk : k = normKey e := congrArg Prod.fst hp
                have hgv : g = updateGroup ⟨[], e.category, e.description⟩ e :=
                  congrArg Prod.snd hp
                have hnone : ¬ ∃ e2 ∈ pre, normKey e2 = k := by
                  intro hc
                  rcases (h3 k).mpr hc with ⟨g2, hg2⟩
                  exact hknot (hk ▸ (exists_mem_iff_key acc k).mp ⟨g2, hg2⟩)
                have hfil : pre.filter (fun e2 => normKey e2 == k) = [] := by
                  rw [List.filter_eq_nil_iff]
                  intro e2 hm2 hb
                  exact hnone ⟨e2, hm2, beq_iff_eq.mp hb⟩
                rw [hgv, List.filter_append, hfil]
                unfold updateGroup
                simp [hk]
            · intro k
              constructor
              · rintro ⟨g, hg⟩
                rcases List.mem_append.mp hg with hm | hm
                · rcases (h3 k).mp ⟨g, hm⟩ with ⟨e2, hm2, hk2⟩
                  exact ⟨e2, List.mem_append.mpr (Or.inl hm2), hk2⟩
                · have hp : (k, g) = (normKey e,
                      updateGroup ⟨[], e.category, e.description⟩ e) := by
                    simpa using hm
                  have hk : k = normKey e := congrArg Prod.fst hp
                  exact ⟨e, List.mem_append.mpr (Or.inr (by simp)), hk.symm⟩
              · rintro ⟨e2, hm, hk⟩
                rcases List.mem_append.mp hm with hm | hm
                · rcases (h3 k).mpr ⟨e2, hm, hk⟩ with ⟨g, hg⟩
                  exact ⟨g, List.mem_append.mpr (Or.inl hg)⟩
                · have he2 : e2 = e := by simpa using hm
                  refine ⟨updateGroup ⟨[], e.category, e.description⟩ e,
                    List.mem_append.mpr (Or.inr ?_)⟩
                  have hkn : k = normKey e := by rw [← hk, he2]
                  simp [hkn]
      obtain ⟨s1, s2, s3⟩ := hstep
      obtain ⟨t1, t2, t3⟩ := ih (pre ++ [e]) (groupStep acc e) s1 s2 s3
      have hpre : (pre ++ [e]) ++ rest = pre ++ e :: rest := by simp
      simp only [List.foldl_cons]
      refine ⟨t1, ?_, ?_⟩
      · intro k g hg
        rw [t2 k g hg, hpre]
      · intro k
        rw [← hpre]
        exact t3 k

/-- Facts about a finished group: its pushed dates are the date-times
of its member expenses in order, and there is at least one member. -/
theorem groupItems_spec (es : List Expense) (k : String) (g : ItemGroup)
    (hg : (k, g) ∈ groupItems es) :
    g.dates = ((es.filter (fun e => normKey e == k)).map
      (fun e => e.dateTime)) ∧ g.dates ≠ [] := by
  obtain ⟨_, h2, h3⟩ := groupItems_inv es [] []
    (by simp) (by intro k g h; cases h) (by simp)
  have hg2 : (k, g) ∈ es.foldl groupStep [] := hg
  have hd := h2 k g hg2
  simp only [List.nil_append] at hd h3
  refine ⟨hd, ?_⟩
  rcases (h3 k).mp ⟨g, hg2⟩ with ⟨e0, he0, hk0⟩
  have hmem : e0 ∈ es.filter (fun e => normKey e == k) :=
    List.mem_filter.mpr ⟨he0, beq_iff_eq.mpr hk0⟩
  rw [hd]
  intro hc
  rw [List.map_eq_nil_iff] at hc
  rw [hc] at hmem
  cases hmem

/-- The grouping pass produces duplicate-free keys. -/
theorem groupItems_keys_nodup (es : List Expense) :
    ((groupItems es).map Prod.fst).Nodup := by
  obtain ⟨h1, _, _⟩ := groupItems_inv es [] []
    (by simp) (by intro k g h; cases h) (by simp)
  exact h1

theorem adjGaps_eq_head_sub_last :
    ∀ (l : List ℤ), l ≠ [] → adjGaps l = l.headD 0 - lastD 0 l := by
  intro l
  induction l with
  | nil => intro h; exact absurd rfl h
  | cons a as ih =>
      intro _
      cases as with
      | nil => simp [adjGaps, lastD]
      | cons b bs =>
          have h1 : adjGaps (a :: b :: bs) = (a - b) + adjGaps (b :: bs) := rfl
          have h2 : lastD 0 (a :: b :: bs) = lastD 0 (b :: bs) := rfl
          rw [h1, h2, ih (by simp)]
          simp

theorem adjGaps_nonneg :
    ∀ (l : List ℤ), l.Pairwise (fun a b => b ≤ a) → 0 ≤ adjGaps l := by
  intro l
  induction l with
  | nil => intro _; exact le_refl 0
  | cons a as ih =>
      intro hp
      cases as with
      | nil => exact le_refl 0
      | cons b bs =>
          have h1 : adjGaps (a :: b :: bs) = (a - b) + adjGaps (b :: bs) := rfl
          rw [h1]
          have hba : b ≤ a :=
            List.rel_of_pairwise_cons hp (List.mem_cons_self b bs)
          have htl := ih (List.pairwise_cons.mp hp).2
          omega

/-- All eight fields of one predictor row, written out. -/
theorem mkStat_fields (g : ItemGroup) (now : ℤ) :
    (mkStat g now).name = g.name ∧
    (mkStat g now).category = g.category ∧
    (mkStat g now).lastPurchased = (sortDesc g.dates).headD 0 ∧
    (mkStat g now).daysSinceLastPurchase
      = Int.fdiv (now - (sortDesc g.dates).headD 0) msPerDay ∧
    (mkStat g now).purchaseCount = (sortDesc g.dates).length ∧
    (mkStat g now).genericShelfLife = shelfLifeDays g.category ∧
    (mkStat g now).avgCycle = (if 2 ≤ (sortDesc g.dates).length then
      some (round ((((adjGaps (sortDesc g.dates) : ℤ) : ℚ) /
        (((sortDesc g.dates).length : ℚ) - 1)) / (msPerDay : ℚ)))
      else none) :=
  ⟨rfl, rfl, rfl, rfl, rfl, rfl, rfl⟩

/-- The classification step, in terms of the already-computed fields. -/
theorem mkStat_status (g : ItemGroup) (now : ℤ) :
    (∀ c, (mkStat g now).avgCycle = some c →
      (mkStat g now).status =
        (if c ≤ (mkStat g now).daysSinceLastPurchase then Status.stockUp
         else if (c : ℚ) * (4 / 5) ≤
             ((mkStat g now).daysSinceLastPurchase : ℚ) then Status.runningLow
         else Status.good)) ∧
    ((mkStat g now).avgCycle = none →
      (mkStat g now).status =
        (if (mkStat g now).genericShelfLife ≤
            (mkStat g now).daysSinceLastPurchase then Status.stockUp
         else if ((mkStat g now).genericShelfLife : ℚ) * (9 / 10) ≤
             ((mkStat g now).daysSinceLastPurchase : ℚ) then Status.runningLow
         else Status.good)) := by
  have hs : (mkStat g now).status
      = (match (mkStat g now).avgCycle with
         | some c2 =>
             if c2 ≤ (mkStat g now).daysSinceLastPurchase then Status.stockUp
             else if (c2 : ℚ) * (4 / 5) ≤
                 ((mkStat g now).daysSinceLastPurchase : ℚ) then
               Status.runningLow
             else Status.good
         | none =>
             if (mkStat g now).genericShelfLife ≤
                 (mkStat g now).daysSinceLastPurchase then Status.stockUp
             else if ((mkStat g now).genericShelfLife : ℚ) * (9 / 10) ≤
                 ((mkStat g now).daysSinceLastPurchase : ℚ) then
               Status.runningLow
             else Status.good) := rfl
  constructor
  · intro c hc
    rw [hs, hc]
  · intro hc
    rw [hs, hc]

/-- C3: for every expense list and injected `now`, each replenishment
group is keyed by trimmed lower-cased description and collects exactly
its members' date-times; `daysSinceLastPurchase` is the floored day
difference from `now` to the most recent purchase; with at least two
purchases `avgCycle` is the mean day gap of the date-sorted purchases
(equal, by telescoping, to the span from oldest to newest divided by
the gap count) rounded to the nearest day, and `none` otherwise; and
the status uses the `>= avgCycle` / `>= 0.8 * avgCycle` thresholds
when the cycle is known and the `>= shelfLife` / `>= 0.9 * shelfLife`
thresholds on the category's generic shelf life otherwise. -/
theorem c3_replenishment_classification (es : List Expense) (now : ℤ)
    (k : String) (g : ItemGroup) (hg : (k, g) ∈ groupItems es) :
    (g.dates = ((es.filter (fun e => normKey e == k)).map
      (fun e => e.dateTime)) ∧ g.dates ≠ []) ∧
    ((mkStat g now).lastPurchased ∈ g.dates ∧
      ∀ d ∈ g.dates, d ≤ (mkStat g now).lastPurchased) ∧
    (mkStat g now).daysSinceLastPurchase
      = Int.fdiv (now - (mkStat g now).lastPurchased) msPerDay ∧
    (mkStat g now).purchaseCount = g.dates.length ∧
    (2 ≤ g.dates.length →
      ∃ mn, mn ∈ g.dates ∧ (∀ d ∈ g.dates, mn ≤ d) ∧
        (mkStat g now).avgCycle = some (round
          ((((mkStat g now).lastPurchased - mn : ℤ) : ℚ) /
            (((g.dates.length : ℚ) - 1) * (msPerDay : ℚ))))) ∧
    (g.dates.length < 2 → (mkStat g now).avgCycle = none) ∧
    (∀ c, (mkStat g now).avgCycle = some c →
      (mkStat g now).status =
        (if c ≤ (mkStat g now).daysSinceLastPurchase then Status.stockUp
         else if (c : ℚ) * (4 / 5) ≤
             ((mkStat g now).daysSinceLastPurchase : ℚ) then Status.runningLow
         else Status.good)) ∧
    ((mkStat g now).avgCycle = none →
      (mkStat g now).status =
        (if (mkStat g now).genericShelfLife ≤
            (mkStat g now).daysSinceLastPurchase then Status.stockUp
         else if ((mkStat g now).genericShelfLife : ℚ) * (9 / 10) ≤
             ((mkStat g now).daysSinceLastPurchase : ℚ) then Status.runningLow
         else Status.good)) ∧
    (mkStat g now).genericShelfLife = shelfLifeDays g.category := by
  obtain ⟨hdates, hne⟩ := groupItems_spec es k g hg
  obtain ⟨_, _, hlast, hdays, hcount, hshelf, havg⟩ := mkStat_fields g now
  have hlen : (sortDesc g.dates).length = g.dates.length :=
    length_sortDescBy (fun x => x) g.dates
  have hsne : sortDesc g.dates ≠ [] := by
    intro hc
    rw [hc] at hlen
    exact hne (List.length_eq_zero.mp hlen.symm)
  refine ⟨⟨hdates, hne⟩, ⟨?_, ?_⟩, hdays, by rw [hcount, hlen], ?_, ?_,
    (mkStat_status g now).1, (mkStat_status g now).2, hshelf⟩
  · rw [hlast]
    exact sortDescBy_headD_mem (fun x => x) g.dates 0 hne
  · intro d hd
    rw [hlast]
    exact sortDescBy_headD_ge (fun x => x) g.dates 0 d
      ((mem_sortDescBy (fun x => x) g.dates d).mpr hd)
  · intro h2
    refine ⟨lastD 0 (sortDesc g.dates),
      sortDescBy_lastD_mem (fun x => x) g.dates 0 hne,
      fun d hd => sortDescBy_lastD_le (fun x => x) g.dates 0 d hd, ?_⟩
    rw [havg, if_pos (by rw [hlen]; exact h2)]
    congr 1
    rw [adjGaps_eq_head_sub_last (sortDesc g.dates) hsne, hlast, hlen,
      div_div]
  · intro h2
    rw [havg, if_neg (by rw [hlen]; omega)]

/-- C3 witness input: the spec's own example, one item bought on day 0
and day 10, observed at day 9. -/
def esC3 : List Expense :=
  [mkExp "1" "milk" 2 0 .dairyEggs "A" "Me" "Me",
   mkExp "2" "milk" 2 10 .dairyEggs "A" "Me" "Me"]

def gC3 : ItemGroup := ⟨[0, 10 * msPerDay], .dairyEggs, "milk"⟩

/-- C3 witness: the classification theorem applied to the two-purchase
milk example. -/
theorem c3_replenishment_classification_witness :
    (("milk", gC3) ∈ groupItems esC3) ∧
    (mkStat gC3 (9 * msPerDay)).daysSinceLastPurchase
      = Int.fdiv (9 * msPerDay - (mkStat gC3 (9 * msPerDay)).lastPurchased)
          msPerDay :=
  ⟨by decide,
   (c3_replenishment_classification esC3 (9 * msPerDay) "milk" gC3
     (by decide)).2.2.1⟩

/-- C9 failing input: three purchases of the same item, arriving in the
order day 0 ("Milk"), day 2 ("MILK"), day 1 ("milk"). -/
def esC9 : List Expense :=
  [mkExp "1" "Milk" 2 0 .dairyEggs "A" "Me" "Me",
   mkExp "2" "MILK" 3 2 .dairyEggs "A" "Me" "Me",
   mkExp "3" "milk" 4 1 .dairyEggs "A" "Me" "Me"]

/-- C9: the display name is NOT the description of the most recent
purchase.  The group's most recent purchase (day 2) is described
"MILK", yet the grouping pass stores name "milk": the source's rename
test compares each incoming date against `dates[0]` — the first pushed
date — instead of the date of the name it currently holds, so the later
but not-latest day-1 purchase overwrites the name.  The code's own
comment ("Keep the most recent casing/name") states the intent the
computation misses. -/
theorem c9_display_name_eval :
    groupItems esC9
      = [("milk", ⟨[0, 2 * msPerDay, 1 * msPerDay], .dairyEggs, "milk"⟩)] ∧
    (∀ e ∈ esC9, e.dateTime ≤ 2 * msPerDay) ∧
    (∃ e ∈ esC9, e.dateTime = 2 * msPerDay ∧ e.description = "MILK") ∧
    (∀ e ∈ esC9, e.description = "MILK" ∨ e.dateTime < 2 * msPerDay) ∧
    "milk" ≠ "MILK" := by
  decide

/-- A known average cycle is nonnegative: the sorted gaps are
nonnegative and rounding preserves that. -/
theorem mkStat_avgCycle_nonneg (g : ItemGroup) (now : ℤ) (c : ℤ)
    (h : (mkStat g now).avgCycle = some c) : 0 ≤ c := by
  obtain ⟨_, _, _, _, _, _, havg⟩ := mkStat_fields g now
  rw [havg] at h
  by_cases hl : 2 ≤ (sortDesc g.dates).length
  · rw [if_pos hl] at h
    have hceq := Option.some_inj.mp h
    rw [← hceq, round_eq]
    have hq : 0 ≤ (((adjGaps (sortDesc g.dates) : ℤ) : ℚ) /
        (((sortDesc g.dates).length : ℚ) - 1)) / (msPerDay : ℚ) := by
      apply div_nonneg
      apply div_nonneg
      · exact_mod_cast adjGaps_nonneg _ (pairwise_sortDescBy _ _)
      · have h2 : (2 : ℚ) ≤ ((sortDesc g.dates).length : ℚ) := by
          exact_mod_cast hl
        linarith
      · norm_num [msPerDay]
    have h0 : (0 : ℤ) = ⌊(0 : ℚ) + 1 / 2⌋ := by norm_num
    rw [h0]
    apply Int.floor_le_floor
    linarith
  · rw [if_neg hl] at h
    cases h

/-- The planner's needed test, restated on the predictor's fields. -/
theorem plannerNeeded_spec (g : ItemGroup) (now : ℤ)
    (h : plannerNeeded g now = true) :
    (∃ c, (mkStat g now).avgCycle = some c ∧
      (c : ℚ) * (9 / 10) ≤ ((mkStat g now).daysSinceLastPurchase : ℚ)) ∨
    ((mkStat g now).avgCycle = none ∧
      ((mkStat g now).genericShelfLife : ℚ) * (9 / 10) ≤
        ((mkStat g now).daysSinceLastPurchase : ℚ)) := by
  obtain ⟨_, _, _, hdays, _, hshelf, havg⟩ := mkStat_fields g now
  simp only [plannerNeeded] at h
  by_cases hl : 2 ≤ (sortDesc g.dates).length
  · rw [if_pos hl] at h
    left
    refine ⟨_, by rw [havg, if_pos hl], ?_⟩
    rw [hdays]
    simpa using h
  · rw [if_neg hl] at h
    right
    refine ⟨by rw [havg, if_neg hl], ?_⟩
    rw [hdays, hshelf]
    simpa using h

/-- C4 (amended): every item the Store Optimizer flags as needed is
also flagged by the Replenishment Predictor (Stock Up or Running Low),
because the planner's `0.9 * avgCycle` threshold is at least the
predictor's `0.8 * avgCycle` (cycles are nonnegative) and the
shelf-life fallback thresholds coincide at `0.9`.  Equality of the two
needed-sets fails: see the counterexample. -/
theorem c4_needed_subset (g : ItemGroup) (now : ℤ)
    (h : plannerNeeded g now = true) :
    neededStatus (mkStat g now).status = true := by
  obtain ⟨hsome, hnone⟩ := mkStat_status g now
  rcases plannerNeeded_spec g now h with ⟨c, havg2, hp⟩ | ⟨havg2, hp⟩
  · have hcnn : (0 : ℚ) ≤ (c : ℚ) := by
      exact_mod_cast mkStat_avgCycle_nonneg g now c havg2
    rw [hsome c havg2]
    by_cases hstock : c ≤ (mkStat g now).daysSinceLastPurchase
    · rw [if_pos hstock]; rfl
    · rw [if_neg hstock, if_pos ?_]
      · rfl
      · nlinarith
  · rw [hnone havg2]
    by_cases hstock : (mkStat g now).genericShelfLife ≤
        (mkStat g now).daysSinceLastPurchase
    · rw [if_pos hstock]; rfl
    · rw [if_neg hstock, if_pos hp]
      rfl

/-- C4 witness input: a ten-day cycle item observed ten days after the
last purchase — needed for both components. -/
def gC4 : ItemGroup := ⟨[0, 10 * msPerDay], .pantry, "rice"⟩

/-- C4 witness: the subset theorem applied at a point where the
planner flags the item. -/
theorem c4_needed_subset_witness :
    plannerNeeded gC4 (20 * msPerDay) = true ∧
    neededStatus (mkStat gC4 (20 * msPerDay)).status = true :=
  ⟨by norm_num [plannerNeeded, gC4, sortDesc, sortDescBy, insertDescBy,
     adjGaps, msPerDay, round_eq, shelfLifeDays, Int.fdiv],
   c4_needed_subset gC4 (20 * msPerDay)
     (by norm_num [plannerNeeded, gC4, sortDesc, sortDescBy, insertDescBy,
       adjGaps, msPerDay, round_eq, shelfLifeDays, Int.fdiv])⟩

/-- C4 counterexample input: same item, observed eight days after the
last purchase of a ten-day cycle. -/
def esC4x : List Expense :=
  [mkExp "1" "milk" 2 0 .dairyEggs "A" "Me" "Me",
   mkExp "2" "milk" 2 10 .dairyEggs "A" "Me" "Me"]

def gC4x : ItemGroup := ⟨[0, 10 * msPerDay], .dairyEggs, "milk"⟩

/-- C4 counterexample: at `now` = day 18 the predictor classifies the
ten-day-cycle item "Running Low" (8 ≥ 0.8·10), hence needed, but the
planner's own recomputation does not (8 < 0.9·10): the two components'
needed-sets are not equal on the same expenses and the same now. -/
theorem c4_counterexample :
    groupItems esC4x = [("milk", gC4x)] ∧
    neededStatus (mkStat gC4x (18 * msPerDay)).status = true ∧
    plannerNeeded gC4x (18 * msPerDay) = false := by
  refine ⟨by decide, ?_, ?_⟩
  · norm_num [mkStat, gC4x, neededStatus, sortDesc, sortDescBy,
      insertDescBy, adjGaps, msPerDay, round_eq, shelfLifeDays, Int.fdiv]
  · norm_num [plannerNeeded, gC4x, sortDesc, sortDescBy, insertDescBy,
      adjGaps, msPerDay, round_eq, shelfLifeDays, Int.fdiv]

/-! ### Store Optimizer (`plan` in `StorePlanner`) -/

/-- Per-store accumulator `{ sum, count }` of the price analysis. -/
structure SStat where
  sum : ℚ
  count : ℕ
deriving DecidableEq

/-- `e.store || 'Unknown'`: an empty store name maps to "Unknown". -/
def storeKey (e : Expense) : String :=
  if e.store = "" then "Unknown" else e.store

/-- The `storeStats` loop body: create `{sum: 0, count: 0}` on first
sight and add the amount / bump the count (fused here since the
creation is immediately followed by the addition). -/
def storeStep (acc : List (String × SStat)) (e : Expense) :
    List (String × SStat) :=
  let s := storeKey e
  match alGet acc s with
  | some _ => alModify acc s (fun st => ⟨st.sum + e.amount, st.count + 1⟩)
  | none => acc ++ [(s, ⟨e.amount, 1⟩)]

/-- Per-store sums and counts over an item's purchases. -/
def storeStats (l : List Expense) : List (String × SStat) :=
  l.foldl storeStep []

/-- The `cheapestStore` / `minAvg` scan (strict `<`, so the earliest
store attaining the minimum average wins, starting from `minAvg =
Infinity`, embedded as `none`). -/
def cheapestFold (ss : List (String × SStat)) : String × Option ℚ :=
  ss.foldl (fun acc kv =>
    match acc.2 with
    | none => (kv.1, some (kv.2.sum / (kv.2.count : ℚ)))
    | some m =>
        if kv.2.sum / (kv.2.count : ℚ) < m then
          (kv.1, some (kv.2.sum / (kv.2.count : ℚ)))
        else acc) ("", none)

/-- `uniqueStore`: the single key when exactly one store occurs. -/
def uniqueStoreOf (ss : List (String × SStat)) : Option String :=
  match ss with
  | [(s, _)] => some s
  | _ => none

/-- The `reason` union of `PlannedItem`. -/
inductive Reason where
  | exclusive
  | bestPrice
  | needed
deriving DecidableEq

/-- One planned line (`PlannedItem`); absent optional fields are
`none`. -/
structure PlannedItem where
  name : String
  category : Category
  reason : Reason
  avgPriceHere : ℚ
  cheapestStore : Option String
  savings : Option ℚ
  isNeeded : Bool
deriving DecidableEq

/-- The per-item decision of phase 2 of `plan`: `true` routes to
`smartBuys`, `false` to `otherNeeds`. -/
def planItem (es : List Expense) (sel : String) (k : String)
    (g : ItemGroup) : Bool × PlannedItem :=
  let itemExps := es.filter (fun e => normKey e == k)
  let ss := storeStats itemExps
  let cm := cheapestFold ss
  let uniq := uniqueStoreOf ss
  match alGet ss sel with
  | some st =>
      let avgSel := st.sum / (st.count : ℚ)
      if uniq = some sel then
        (true, ⟨g.name, g.category, .exclusive, avgSel, none, none, true⟩)
      else if cm.1 = sel then
        (true, ⟨g.name, g.category, .bestPrice, avgSel, none, none, true⟩)
      else
        (false, ⟨g.name, g.category, .needed, avgSel, some cm.1,
          some (avgSel - cm.2.getD 0), true⟩)
  | none =>
      (false, ⟨g.name, g.category, .needed, 0, some cm.1, none, true⟩)

/-- One step of the planning fold over the groups. -/
def planStep (es : List Expense) (sel : String) (now : ℤ)
    (acc : List PlannedItem × List PlannedItem) (kg : String × ItemGroup) :
    List PlannedItem × List PlannedItem :=
  if plannerNeeded kg.2 now then
    if (planItem es sel kg.1 kg.2).1 then
      (acc.1 ++ [(planItem es sel kg.1 kg.2).2], acc.2)
    else (acc.1, acc.2 ++ [(planItem es sel kg.1 kg.2).2])
  else acc

/-- The trip plan `{ smartBuys, otherNeeds }` of `StorePlanner`. -/
def plan (es : List Expense) (sel : String) (now : ℤ) :
    List PlannedItem × List PlannedItem :=
  if sel = "" then ([], [])
  else (groupItems es).foldl (planStep es sel now) ([], [])

/-- Aggregation invariant of the per-store stats fold, mirroring the
grouping invariant. -/
theorem storeStats_inv :
    ∀ (rest pre : List Expense) (acc : List (String × SStat)),
      (acc.map Prod.fst).Nodup →
      (∀ s st, (s, st) ∈ acc →
        st.count = (pre.filter (fun e => storeKey e == s)).length ∧
        st.sum = ((pre.filter (fun e => storeKey e == s)).map
          (fun e => e.amount)).sum) →
      (∀ s, (∃ st, (s, st) ∈ acc) ↔ ∃ e ∈ pre, storeKey e = s) →
      ((rest.foldl storeStep acc).map Prod.fst).Nodup ∧
      (∀ s st, (s, st) ∈ rest.foldl storeStep acc →
        st.count = ((pre ++ rest).filter (fun e => storeKey e == s)).length ∧
        st.sum = (((pre ++ rest).filter (fun e => storeKey e == s)).map
          (fun e => e.amount)).sum) ∧
      (∀ s, (∃ st, (s, st) ∈ rest.foldl storeStep acc) ↔
        ∃ e ∈ pre ++ rest, storeKey e = s) := by
  intro rest
  induction rest with
  | nil =>
      intro pre acc h1 h2 h3
      simpa using ⟨h1, h2, h3⟩
  | cons e rest ih =>
      intro pre acc h1 h2 h3
      have hstep :
          ((storeStep acc e).map Prod.fst).Nodup ∧
          (∀ s st, (s, st) ∈ storeStep acc e →
            st.count = ((pre ++ [e]).filter
              (fun e2 => storeKey e2 == s)).length ∧
            st.sum = (((pre ++ [e]).filter (fun e2 => storeKey e2 == s)).map
              (fun e2 => e2.amount)).sum) ∧
          (∀ s, (∃ st, (s, st) ∈ storeStep acc e) ↔
            ∃ e2 ∈ pre ++ [e], storeKey e2 = s) := by
        unfold storeStep
        cases hget : alGet acc (storeKey e) with
        | some st0 =>
            simp only [hget]
            refine ⟨by rw [alModify_keys]; exact h1, ?_, ?_⟩
            · intro s st hst
              rcases mem_alModify acc (storeKey e) _ (s, st) hst with
                ⟨hne, hmem⟩ | ⟨heq, v, hv, hval⟩
              · simp only at hne
                obtain ⟨hc, hs⟩ := h2 s st hmem
                have hbf : (storeKey e == s) = false :=
                  beq_eq_false_iff_ne.mpr (fun hc2 => hne hc2.symm)
                rw [List.filter_append]
                constructor
                · rw [hc]; simp [hbf]
                · rw [hs]; simp [hbf]
              · simp only at heq hval
                subst heq
                obtain ⟨hc, hs⟩ := h2 _ v hv
                rw [hval, List.filter_append]
                constructor
                · simp [hc]
                · simp [hs]
            · intro s
              rw [exists_mem_iff_key, alModify_keys, ← exists_mem_iff_key,
                h3 s]
              constructor
              · rintro ⟨e2, hm, hk⟩
                exact ⟨e2, List.mem_append.mpr (Or.inl hm), hk⟩
              · rintro ⟨e2, hm, hk⟩
                rcases List.mem_append.mp hm with hm | hm
                · exact ⟨e2, hm, hk⟩
                · have he2 : e2 = e := by simpa using hm
                  rw [he2] at hk
                  rw [← hk]
                  exact (h3 (storeKey e)).mp ⟨st0, alGet_mem _ _ _ hget⟩
        | none =>
            simp only [hget]
            have hknot : storeKey e ∉ acc.map Prod.fst :=
              (alGet_none_iff acc (storeKey e)).mp hget
            refine ⟨?_, ?_, ?_⟩
            · rw [List.map_append]
              refine List.nodup_append.mpr ⟨h1, by simp, ?_⟩
              intro a ha hb
              have hak : a = storeKey e := by simpa using hb
              subst hak
              exact hknot ha
            · intro s st hst
              rcases List.mem_append.mp hst with hm | hm
              · have hkk : s ∈ acc.map Prod.fst :=
                  (exists_mem_iff_key acc s).mp ⟨st, hm⟩
                have hne : storeKey e ≠ s := fun hc => hknot (hc ▸ hkk)
                obtain ⟨hc, hs⟩ := h2 s st hm
                have hbf : (storeKey e == s) = false :=
                  beq_eq_false_iff_ne.mpr hne
                rw [List.filter_append]
                constructor
                · rw [hc]; simp [hbf]
                · rw [hs]; simp [hbf]
              · have hp : (s, st) = (storeKey e, ⟨e.amount, 1⟩) := by
                  simpa using hm
                have hks : s = storeKey e := congrArg Prod.fst hp
                have hstv : st = (⟨e.amount, 1⟩ : SStat) :=
                  congrArg Prod.snd hp
                have hnone : ¬ ∃ e2 ∈ pre, storeKey e2 = s := by
                  intro hc
                  rcases (h3 s).mpr hc with ⟨st2, hst2⟩
                  exact hknot (hks ▸ (exists_mem_iff_key acc s).mp ⟨st2, hst2⟩)
                have hfil : pre.filter (fun e2 => storeKey e2 == s) = [] := by
                  rw [List.filter_eq_nil_iff]
                  intro e2 hm2 hb
                  exact hnone ⟨e2, hm2, beq_iff_eq.mp hb⟩
                rw [hstv, List.filter_append, hfil]
                constructor
                · simp [hks]
                · simp [hks]
            · intro s
              constructor
              · rintro ⟨st, hst⟩
                rcases List.mem_append.mp hst with hm | hm
                · rcases (h3 s).mp ⟨st, hm⟩ with ⟨e2, hm2, hk2⟩
                  exact ⟨e2, List.mem_append.mpr (Or.inl hm2), hk2⟩
                · have hp : (s, st) = (storeKey e, ⟨e.amount, 1⟩) := by
                    simpa using hm
                  have hks : s = storeKey e := congrArg Prod.fst hp
                  exact ⟨e, List.mem_append.mpr (Or.inr (by simp)), hks.symm⟩
              · rintro ⟨e2, hm, hk⟩
                rcases List.mem_append.mp hm with hm | hm
                · rcases (h3 s).mpr ⟨e2, hm, hk⟩ with ⟨st, hst⟩
                  exact ⟨st, List.mem_append.mpr (Or.inl hst)⟩
                · have he2 : e2 = e := by simpa using hm
                  rw [he2] at hk
                  refine ⟨⟨e.amount, 1⟩, List.mem_append.mpr (Or.inr ?_)⟩
                  simp [← hk]
      obtain ⟨s1, s2, s3⟩ := hstep
      obtain ⟨t1, t2, t3⟩ := ih (pre ++ [e]) (storeStep acc e) s1 s2 s3
      have hpre : (pre ++ [e]) ++ rest = pre ++ e :: rest := by simp
      simp only [List.foldl_cons]
      refine ⟨t1, ?_, ?_⟩
      · intro s st hst
        have := t2 s st hst
        rw [hpre] at this
        exact this
      · intro s
        rw [← hpre]
        exact t3 s

theorem storeStats_keys_nodup (l : List Expense) :
    ((storeStats l).map Prod.fst).Nodup :=
  (storeStats_inv l [] [] (by simp) (by intro s st h; cases h) (by simp)).1

theorem storeStats_spec (l : List Expense) (s : String) (st : SStat)
    (h : (s, st) ∈ storeStats l) :
    st.count = (l.filter (fun e => storeKey e == s)).length ∧
    st.sum = ((l.filter (fun e => storeKey e == s)).map
      (fun e => e.amount)).sum ∧
    1 ≤ st.count := by
  obtain ⟨_, h2, h3⟩ := storeStats_inv l [] []
    (by simp) (by intro s st h; cases h) (by simp)
  simp only [List.nil_append] at h2 h3
  obtain ⟨hc, hs⟩ := h2 s st h
  refine ⟨hc, hs, ?_⟩
  rcases (h3 s).mp ⟨st, h⟩ with ⟨e0, he0, hk0⟩
  have hmem : e0 ∈ l.filter (fun e => storeKey e == s) :=
    List.mem_filter.mpr ⟨he0, beq_iff_eq.mpr hk0⟩
  rw [hc]
  exact List.length_pos.mpr (List.ne_nil_of_mem hmem)

theorem storeStats_mem_iff (l : List Expense) (s : String) :
    (∃ st, (s, st) ∈ storeStats l) ↔ ∃ e ∈ l, storeKey e = s := by
  obtain ⟨_, _, h3⟩ := storeStats_inv l [] []
    (by simp) (by intro s st h; cases h) (by simp)
  simpa using h3 s

theorem alGet_eq_some_of_mem {α : Type} (l : List (String × α)) (s : String)
    (v : α) (hnd : (l.map Prod.fst).Nodup) (h : (s, v) ∈ l) :
    alGet l s = some v := by
  induction l with
  | nil => cases h
  | cons kv rest ih =>
      obtain ⟨k1, v1⟩ := kv
      rcases List.mem_cons.mp h with heq | hm
      · have hk : k1 = s := (congrArg Prod.fst heq).symm
        have hv : v1 = v := (congrArg Prod.snd heq).symm
        rw [alGet, if_pos hk, hv]
      · by_cases hk : k1 = s
        · exfalso
          have : s ∈ rest.map Prod.fst :=
            List.mem_map.mpr ⟨(s, v), hm, rfl⟩
          rw [← hk] at this
          exact (List.nodup_cons.mp (by simpa using hnd)).1 this
        · rw [alGet, if_neg hk]
          exact ih (List.nodup_cons.mp (by simpa using hnd)).2 hm

theorem mem_value_unique {α : Type} (l : List (String × α)) (s : String)
    (v1 v2 : α) (hnd : (l.map Prod.fst).Nodup) (h1 : (s, v1) ∈ l)
    (h2 : (s, v2) ∈ l) : v1 = v2 := by
  have e1 := alGet_eq_some_of_mem l s v1 hnd h1
  have e2 := alGet_eq_some_of_mem l s v2 hnd h2
  rw [e1] at e2
  exact Option.some_inj.mp e2

/-- The argmin scan: starting from a seed minimum, the fold returns a
value below the seed and every scanned average, attained either by the
seed or by a scanned entry. -/
theorem cheapestFold_go :
    ∀ (l : List (String × SStat)) (c : String) (m : ℚ),
      ∃ m2, (l.foldl (fun acc kv =>
          match acc.2 with
          | none => (kv.1, some (kv.2.sum / (kv.2.count : ℚ)))
          | some m3 =>
              if kv.2.sum / (kv.2.count : ℚ) < m3 then
                (kv.1, some (kv.2.sum / (kv.2.count : ℚ)))
              else acc) (c, some m)).2 = some m2 ∧
        m2 ≤ m ∧
        ((m2 = m ∧ (l.foldl (fun acc kv =>
          match acc.2 with
          | none => (kv.1, some (kv.2.sum / (kv.2.count : ℚ)))
          | some m3 =>
              if kv.2.sum / (kv.2.count : ℚ) < m3 then
                (kv.1, some (kv.2.sum / (kv.2.count : ℚ)))
              else acc) (c, some m)).1 = c) ∨
         (∃ p ∈ l, p.1 = (l.foldl (fun acc kv =>
          match acc.2 with
          | none => (kv.1, some (kv.2.sum / (kv.2.count : ℚ)))
          | some m3 =>
              if kv.2.sum / (kv.2.count : ℚ) < m3 then
                (kv.1, some (kv.2.sum / (kv.2.count : ℚ)))
              else acc) (c, some m)).1 ∧
            p.2.sum / (p.2.count : ℚ) = m2)) ∧
        ∀ p ∈ l, m2 ≤ p.2.sum / (p.2.count : ℚ) := by
  intro l
  induction l with
  | nil =>
      intro c m
      exact ⟨m, rfl, le_refl m, Or.inl ⟨rfl, rfl⟩, by intro p hp; cases hp⟩
  | cons kv rest ih =>
      intro c m
      simp only [List.foldl_cons]
      by_cases hlt : kv.2.sum / (kv.2.count : ℚ) < m
      · rw [if_pos hlt]
        obtain ⟨m2, he, hle, hor, hall⟩ :=
          ih kv.1 (kv.2.sum / (kv.2.count : ℚ))
        refine ⟨m2, he, le_trans hle (le_of_lt hlt), ?_, ?_⟩
        · rcases hor with ⟨hm2, hres⟩ | ⟨p, hp, hp1, hp2⟩
          · exact Or.inr ⟨kv, List.mem_cons_self kv rest, hres.symm ▸ rfl,
              hm2.symm⟩
          · exact Or.inr ⟨p, List.mem_cons_of_mem kv hp, hp1, hp2⟩
        · intro p hp
          rcases List.mem_cons.mp hp with rfl | hp2
          · exact hle
          · exact hall p hp2
      · rw [if_neg hlt]
        obtain ⟨m2, he, hle, hor, hall⟩ := ih c m
        refine ⟨m2, he, hle, ?_, ?_⟩
        · rcases hor with h | ⟨p, hp, hp1, hp2⟩
          · exact Or.inl h
          · exact Or.inr ⟨p, List.mem_cons_of_mem kv hp, hp1, hp2⟩
        · intro p hp
          rcases List.mem_cons.mp hp with rfl | hp2
          · exact le_trans hle (le_of_not_lt hlt)
          · exact hall p hp2

/-- `cheapestFold` on a nonempty stats list yields the global minimum
average, attained at the returned store. -/
theorem cheapestFold_spec (ss : List (String × SStat)) (hne : ss ≠ []) :
    ∃ m, (cheapestFold ss).2 = some m ∧
      (∃ p ∈ ss, p.1 = (cheapestFold ss).1 ∧
        p.2.sum / (p.2.count : ℚ) = m) ∧
      ∀ p ∈ ss, m ≤ p.2.sum / (p.2.count : ℚ) := by
  cases ss with
  | nil => exact absurd rfl hne
  | cons kv rest =>
      unfold cheapestFold
      simp only [List.foldl_cons]
      obtain ⟨m2, he, hle, hor, hall⟩ :=
        cheapestFold_go rest kv.1 (kv.2.sum / (kv.2.count : ℚ))
      refine ⟨m2, he, ?_, ?_⟩
      · rcases hor with ⟨hm2, hres⟩ | ⟨p, hp, hp1, hp2⟩
        · exact ⟨kv, List.mem_cons_self kv rest, hres.symm ▸ rfl, hm2.symm⟩
        · exact ⟨p, List.mem_cons_of_mem kv hp, hp1, hp2⟩
      · intro p hp
        rcases List.mem_cons.mp hp with rfl | hp2
        · exact hle
        · exact hall p hp2

/-- Accumulated plan lists only grow along the fold. -/
theorem plan_fold_mono (es : List Expense) (sel : String) (now : ℤ) :
    ∀ (gs : List (String × ItemGroup))
      (acc : List PlannedItem × List PlannedItem) (x : PlannedItem),
      (x ∈ acc.1 → x ∈ (gs.foldl (planStep es sel now) acc).1) ∧
      (x ∈ acc.2 → x ∈ (gs.foldl (planStep es sel now) acc).2) := by
  intro gs
  induction gs with
  | nil => intro acc x; exact ⟨id, id⟩
  | cons kg rest ih =>
      intro acc x
      simp only [List.foldl_cons]
      constructor
      · intro hx
        refine (ih (planStep es sel now acc kg) x).1 ?_
        unfold planStep
        by_cases hn : plannerNeeded kg.2 now
        · by_cases hr : (planItem es sel kg.1 kg.2).1
          · simp [hn, hr, List.mem_append, hx]
          · simp only [hn, if_true, hr]
            simpa using hx
        · simpa [hn] using hx
      · intro hx
        refine (ih (planStep es sel now acc kg) x).2 ?_
        unfold planStep
        by_cases hn : plannerNeeded kg.2 now
        · by_cases hr : (planItem es sel kg.1 kg.2).1
          · simp only [hn, if_true, hr]
            simpa using hx
          · simp [hn, hr, List.mem_append, hx]
        · simpa [hn] using hx

/-- Every needed group contributes its planned item to the plan, on
the side its decision bit selects. -/
theorem mem_plan (es : List Expense) (sel : String) (now : ℤ)
    (hsel : sel ≠ "") (k : String) (g : ItemGroup)
    (hg : (k, g) ∈ groupItems es) (hneed : plannerNeeded g now = true) :
    ((planItem es sel k g).1 = true →
      (planItem es sel k g).2 ∈ (plan es sel now).1) ∧
    ((planItem es sel k g).1 = false →
      (planItem es sel k g).2 ∈ (plan es sel now).2) := by
  unfold plan
  rw [if_neg hsel]
  suffices h : ∀ (gs : List (String × ItemGroup))
      (acc : List PlannedItem × List PlannedItem),
      (k, g) ∈ gs →
      ((planItem es sel k g).1 = true →
        (planItem es sel k g).2 ∈ (gs.foldl (planStep es sel now) acc).1) ∧
      ((planItem es sel k g).1 = false →
        (planItem es sel k g).2 ∈ (gs.foldl (planStep es sel now) acc).2) by
    exact h (groupItems es) ([], []) hg
  intro gs
  induction gs with
  | nil => intro acc h; cases h
  | cons kg rest ih =>
      intro acc hmem
      simp only [List.foldl_cons]
      rcases List.mem_cons.mp hmem with heq | hm
      · constructor
        · intro hr
          refine (plan_fold_mono es sel now rest
            (planStep es sel now acc kg) _).1 ?_
          unfold planStep
          rw [← heq] at *
          simp only at *
          rw [if_pos hneed, if_pos hr]
          simp
        · intro hr
          refine (plan_fold_mono es sel now rest
            (planStep es sel now acc kg) _).2 ?_
          unfold planStep
          rw [← heq] at *
          simp only at *
          rw [if_pos hneed,
            if_neg (by rw [hr]; exact Bool.false_ne_true)]
          simp
      · exact ih (planStep es sel now acc kg) hm

theorem uniqueStoreOf_eq_some (ss : List (String × SStat)) (s : String)
    (h : uniqueStoreOf ss = some s) : ∃ st, ss = [(s, st)] := by
  cases ss with
  | nil => simp [uniqueStoreOf] at h
  | cons p rest =>
      cases rest with
      | nil =>
          obtain ⟨p1, p2⟩ := p
          have hs : p1 = s := by simpa [uniqueStoreOf] using h
          exact ⟨p2, by rw [hs]⟩
      | cons q rest2 => simp [uniqueStoreOf] at h

theorem singleton_of_allkeys (l : List (String × SStat)) (s : String)
    (hnd : (l.map Prod.fst).Nodup) (hall : ∀ p ∈ l, p.1 = s)
    (hne : l ≠ []) : ∃ st, l = [(s, st)] := by
  cases l with
  | nil => exact absurd rfl hne
  | cons p rest =>
      obtain ⟨p1, p2⟩ := p
      have hp1 : p1 = s := hall (p1, p2) (List.mem_cons_self _ _)
      cases rest with
      | nil => exact ⟨p2, by rw [hp1]⟩
      | cons q rest2 =>
          exfalso
          have hq1 : q.1 = s :=
            hall q (List.mem_cons_of_mem _ (List.mem_cons_self q rest2))
          have hmem : q.1 ∈ (q :: rest2).map Prod.fst :=
            List.mem_map.mpr ⟨q, List.mem_cons_self q rest2, rfl⟩
          simp only [List.map_cons] at hnd
          have hnotin : p1 ∉ (q :: rest2).map Prod.fst :=
            (List.nodup_cons.mp hnd).1
          rw [hq1, ← hp1] at hmem
          exact hnotin hmem

/-- C5 (amended): per needed item, against the selected store.
(a) Bought only at the selected store: smart buy, reason Exclusive.
(b) Bought here and elsewhere, and the selected store is the recorded
cheapest (the earliest store attaining the minimum per-store average,
the scan using strict `<`): smart buy, reason Best Price, and the
selected store's average really is a global minimum.
(c) Bought here but the recorded cheapest store is another: it lands
in other-needs with the recorded cheapest store and savings
`avgAtSelected - minAvg` (nonnegative, possibly zero on ties — a tie
is NOT routed to smart buys even though the selected store then also
attains the minimum; that is the correction this claim needs).
(d) Never bought at the selected store: other-needs with price-here 0
and the recorded cheapest store.  -/
theorem c5_store_optimizer_cases (es : List Expense) (sel : String)
    (now : ℤ) (k : String) (g : ItemGroup)
    (hsel : sel ≠ "") (hg : (k, g) ∈ groupItems es)
    (hneed : plannerNeeded g now = true) :
    ((∀ e ∈ es.filter (fun e => normKey e == k), storeKey e = sel) →
      ∃ st, alGet (storeStats (es.filter (fun e => normKey e == k))) sel
          = some st ∧
        PlannedItem.mk g.name g.category Reason.exclusive
          (st.sum / (st.count : ℚ)) none none true ∈ (plan es sel now).1) ∧
    ((∃ e ∈ es.filter (fun e => normKey e == k), storeKey e = sel) →
     (∃ e ∈ es.filter (fun e => normKey e == k), storeKey e ≠ sel) →
     (cheapestFold (storeStats
        (es.filter (fun e => normKey e == k)))).1 = sel →
      ∃ st, alGet (storeStats (es.filter (fun e => normKey e == k))) sel
          = some st ∧
        (∀ p ∈ storeStats (es.filter (fun e => normKey e == k)),
          st.sum / (st.count : ℚ) ≤ p.2.sum / (p.2.count : ℚ)) ∧
        PlannedItem.mk g.name g.category Reason.bestPrice
          (st.sum / (st.count : ℚ)) none none true ∈ (plan es sel now).1) ∧
    ((∃ e ∈ es.filter (fun e => normKey e == k), storeKey e = sel) →
     (∃ e ∈ es.filter (fun e => normKey e == k), storeKey e ≠ sel) →
     (cheapestFold (storeStats
        (es.filter (fun e => normKey e == k)))).1 ≠ sel →
      ∃ st m, alGet (storeStats (es.filter (fun e => normKey e == k))) sel
          = some st ∧
        (cheapestFold (storeStats
          (es.filter (fun e => normKey e == k)))).2 = some m ∧
        (∀ p ∈ storeStats (es.filter (fun e => normKey e == k)),
          m ≤ p.2.sum / (p.2.count : ℚ)) ∧
        0 ≤ st.sum / (st.count : ℚ) - m ∧
        PlannedItem.mk g.name g.category Reason.needed
          (st.sum / (st.count : ℚ))
          (some (cheapestFold (storeStats
            (es.filter (fun e => normKey e == k)))).1)
          (some (st.sum / (st.count : ℚ) - m)) true
          ∈ (plan es sel now).2) ∧
    ((∀ e ∈ es.filter (fun e => normKey e == k), storeKey e ≠ sel) →
      PlannedItem.mk g.name g.category Reason.needed 0
        (some (cheapestFold (storeStats
          (es.filter (fun e => normKey e == k)))).1) none true
        ∈ (plan es sel now).2) := by
  obtain ⟨hdates, hdne⟩ := groupItems_spec es k g hg
  have hIEne : es.filter (fun e => normKey e == k) ≠ [] := by
    intro hc
    rw [hc] at hdates
    exact hdne (by simpa using hdates)
  have hSSnodup := storeStats_keys_nodup (es.filter (fun e => normKey e == k))
  have hSSne : storeStats (es.filter (fun e => normKey e == k)) ≠ [] := by
    obtain ⟨e0, he0⟩ := List.exists_mem_of_ne_nil _ hIEne
    rcases (storeStats_mem_iff (es.filter (fun e => normKey e == k))
      (storeKey e0)).mpr ⟨e0, he0, rfl⟩ with ⟨st0, hst0⟩
    exact List.ne_nil_of_mem hst0
  have hkeysexp : ∀ p ∈ storeStats (es.filter (fun e => normKey e == k)),
      ∃ e ∈ es.filter (fun e => normKey e == k), storeKey e = p.1 := by
    intro p hp
    exact (storeStats_mem_iff _ p.1).mp ⟨p.2, hp⟩
  have hmp := mem_plan es sel now hsel k g hg hneed
  refine ⟨?_, ?_, ?_, ?_⟩
  · -- (a) Exclusive
    intro hall
    have hallk : ∀ p ∈ storeStats (es.filter (fun e => normKey e == k)),
        p.1 = sel := by
      intro p hp
      rcases hkeysexp p hp with ⟨e1, he1, hk1⟩
      rw [← hk1]
      exact hall e1 he1
    obtain ⟨st0, hsingle⟩ := singleton_of_allkeys _ sel hSSnodup hallk hSSne
    have halget : alGet (storeStats (es.filter (fun e => normKey e == k)))
        sel = some st0 := by
      rw [hsingle, alGet, if_pos rfl]
    have huniq : uniqueStoreOf (storeStats
        (es.filter (fun e => normKey e == k))) = some sel := by
      rw [hsingle]
      rfl
    have hpi : planItem es sel k g = (true,
        PlannedItem.mk g.name g.category Reason.exclusive
          (st0.sum / (st0.count : ℚ)) none none true) := by
      simp only [planItem]
      rw [halget]
      simp [huniq]
    refine ⟨st0, halget, ?_⟩
    have := hmp.1
    rw [hpi] at this
    exact this rfl
  · -- (b) Best Price at the recorded cheapest store
    intro hsome hother hch
    rcases hsome with ⟨e1, he1, hk1⟩
    rcases (storeStats_mem_iff _ sel).mpr ⟨e1, he1, hk1⟩ with ⟨st0, hst0⟩
    have halget := alGet_eq_some_of_mem _ sel st0 hSSnodup hst0
    have huniq : uniqueStoreOf (storeStats
        (es.filter (fun e => normKey e == k))) ≠ some sel := by
      intro hc
      obtain ⟨st1, hsing⟩ := uniqueStoreOf_eq_some _ sel hc
      rcases hother with ⟨e2, he2, hk2⟩
      rcases (storeStats_mem_iff _ (storeKey e2)).mpr
        ⟨e2, he2, rfl⟩ with ⟨st2, hst2⟩
      rw [hsing] at hst2
      have := congrArg Prod.fst (by simpa using hst2 :
        ((storeKey e2, st2) : String × SStat) = (sel, st1))
      exact hk2 this
    obtain ⟨m, hm2, ⟨p, hp, hp1, hp2⟩, hallm⟩ := cheapestFold_spec _ hSSne
    have hpsel : p.1 = sel := by rw [hp1, hch]
    have hpst : p.2 = st0 := by
      refine mem_value_unique _ sel p.2 st0 hSSnodup ?_ hst0
      rw [← hpsel]
      exact hp
    have hmval : st0.sum / (st0.count : ℚ) = m := by rw [← hpst, hp2]
    have hpi : planItem es sel k g = (true,
        PlannedItem.mk g.name g.category Reason.bestPrice
          (st0.sum / (st0.count : ℚ)) none none true) := by
      simp only [planItem]
      rw [halget]
      simp [huniq, hch]
    refine ⟨st0, halget, ?_, ?_⟩
    · intro q hq
      rw [hmval]
      exact hallm q hq
    · have := hmp.1
      rw [hpi] at this
      exact this rfl
  · -- (c) cheaper elsewhere
    intro hsome hother hch
    rcases hsome with ⟨e1, he1, hk1⟩
    rcases (storeStats_mem_iff _ sel).mpr ⟨e1, he1, hk1⟩ with ⟨st0, hst0⟩
    have halget := alGet_eq_some_of_mem _ sel st0 hSSnodup hst0
    have huniq : uniqueStoreOf (storeStats
        (es.filter (fun e => normKey e == k))) ≠ some sel := by
      intro hc
      obtain ⟨st1, hsing⟩ := uniqueStoreOf_eq_some _ sel hc
      rcases hother with ⟨e2, he2, hk2⟩
      rcases (storeStats_mem_iff _ (storeKey e2)).mpr
        ⟨e2, he2, rfl⟩ with ⟨st2, hst2⟩
      rw [hsing] at hst2
      have := congrArg Prod.fst (by simpa using hst2 :
        ((storeKey e2, st2) : String × SStat) = (sel, st1))
      exact hk2 this
    obtain ⟨m, hm2, _, hallm⟩ := cheapestFold_spec _ hSSne
    have hpi : planItem es sel k g = (false,
        PlannedItem.mk g.name g.category Reason.needed
          (st0.sum / (st0.count : ℚ))
          (some (cheapestFold (storeStats
            (es.filter (fun e => normKey e == k)))).1)
          (some (st0.sum / (st0.count : ℚ) - m)) true) := by
      simp only [planItem]
      rw [halget]
      simp [huniq, hch, hm2]
    refine ⟨st0, m, halget, hm2, hallm, ?_, ?_⟩
    · have := hallm (sel, st0) hst0
      simp only at this
      linarith
    · have := hmp.2
      rw [hpi] at this
      exact this rfl
  · -- (d) never bought at the selected store
    intro hall
    have halget : alGet (storeStats (es.filter (fun e => normKey e == k)))
        sel = none := by
      cases halg : alGet (storeStats (es.filter (fun e => normKey e == k)))
          sel with
      | none => rfl
      | some st0 =>
          exfalso
          have hst0 := alGet_mem _ _ _ halg
          rcases (storeStats_mem_iff _ sel).mp ⟨st0, hst0⟩ with ⟨e1, he1, hk1⟩
          exact hall e1 he1 hk1
    have hpi : planItem es sel k g = (false,
        PlannedItem.mk g.name g.category Reason.needed 0
          (some (cheapestFold (storeStats
            (es.filter (fun e => normKey e == k)))).1) none true) := by
      simp only [planItem]
      rw [halget]
    have := hmp.2
    rw [hpi] at this
    exact this rfl

/-- C5 witness input: a needed item bought twice, only at store "A". -/
def esC5 : List Expense :=
  [mkExp "1" "jam" 4 0 .pantry "A" "Me" "Me",
   mkExp "2" "jam" 6 10 .pantry "A" "Me" "Me"]

def gC5 : ItemGroup := ⟨[0, 10 * msPerDay], .pantry, "jam"⟩

/-- C5 witness: the case theorem applied at the exclusive-item
instance. -/
theorem c5_store_optimizer_cases_witness :
    (("A" : String) ≠ "" ∧ ("jam", gC5) ∈ groupItems esC5 ∧
      plannerNeeded gC5 (20 * msPerDay) = true) ∧
    ((∀ e ∈ esC5.filter (fun e => normKey e == "jam"), storeKey e = "A") →
      ∃ st, alGet (storeStats
          (esC5.filter (fun e => normKey e == "jam"))) "A" = some st ∧
        PlannedItem.mk gC5.name gC5.category Reason.exclusive
          (st.sum / (st.count : ℚ)) none none true
          ∈ (plan esC5 "A" (20 * msPerDay)).1) :=
  ⟨⟨by decide, by decide,
    by norm_num [plannerNeeded, gC5, sortDesc, sortDescBy, insertDescBy,
      adjGaps, msPerDay, round_eq, shelfLifeDays, Int.fdiv]⟩,
   (c5_store_optimizer_cases esC5 "A" (20 * msPerDay) "jam" gC5
     (by decide) (by decide)
     (by norm_num [plannerNeeded, gC5, sortDesc, sortDescBy, insertDescBy,
       adjGaps, msPerDay, round_eq, shelfLifeDays, Int.fdiv])).1⟩

/-- C5 counterexample input: the item costs the same 5 at store "A"
(bought first) and at store "B"; the selected store is "B". -/
def esC5x : List Expense :=
  [mkExp "1" "jam" 5 0 .pantry "A" "Me" "Me",
   mkExp "2" "jam" 5 10 .pantry "B" "Me" "Me"]

/-- C5 counterexample: the selected store "B" attains the global
minimum average price (5, tied with "A"), yet the item is not a "Best
Price" smart buy — the scan's strict `<` keeps the earlier store "A"
as `cheapestStore`, so the item lands in other-needs with savings 0.
The claim's clause (b), "if the selected store has the global minimum
per-store average price, it is a smart buy", is false as stated. -/
theorem c5_counterexample :
    alGet (storeStats (esC5x.filter (fun e => normKey e == "jam"))) "B"
      = some ⟨5, 1⟩ ∧
    (∀ p ∈ storeStats (esC5x.filter (fun e => normKey e == "jam")),
      (5 : ℚ) ≤ p.2.sum / (p.2.count : ℚ)) ∧
    plan esC5x "B" (20 * msPerDay)
      = ([], [⟨"jam", .pantry, .needed, 5, some "A", some 0, true⟩]) := by
  have hfil : esC5x.filter (fun e => normKey e == "jam") = esC5x := by
    decide
  have hss : storeStats esC5x = [("A", ⟨5, 1⟩), ("B", ⟨5, 1⟩)] := by
    decide
  have hgroups : groupItems esC5x
      = [("jam", ⟨[0, 10 * msPerDay], .pantry, "jam"⟩)] := by decide
  have hneed : plannerNeeded ⟨[0, 10 * msPerDay], .pantry, "jam"⟩
      (20 * msPerDay) = true := by
    norm_num [plannerNeeded, sortDesc, sortDescBy, insertDescBy, adjGaps,
      msPerDay, round_eq, shelfLifeDays, Int.fdiv]
  have hcf : cheapestFold [("A", (⟨5, 1⟩ : SStat)), ("B", ⟨5, 1⟩)]
      = ("A", some 5) := by
    norm_num [cheapestFold]
  have hpi : planItem esC5x "B" "jam" ⟨[0, 10 * msPerDay], .pantry, "jam"⟩
      = (false, ⟨"jam", .pantry, .needed, 5, some "A", some 0, true⟩) := by
    simp only [planItem, hfil, hss, hcf]
    norm_num [alGet, uniqueStoreOf]
    rw [if_neg (by decide), if_neg (by decide)]
  refine ⟨?_, ?_, ?_⟩
  · rw [hfil, hss]
    decide
  · rw [hfil, hss]
    intro p hp
    rcases List.mem_cons.mp hp with rfl | hp2
    · norm_num
    · rcases List.mem_cons.mp hp2 with rfl | hp3
      · norm_num
      · cases hp3
  · unfold plan
    rw [if_neg (by decide), hgroups]
    simp only [List.foldl_cons, List.foldl_nil, planStep, hneed, if_true,
      hpi]
    norm_num

/-! ### Search/Lookup (`results` in `GlobalSearch`) -/

/-- One aggregated bill `{ store, date, total, count }`.  `time` is the
parse `new Date(date).getTime()` the final sort comparator recomputes
from the stored date string; it is carried on the record here so the
embedding stays executable. -/
structure Bill where
  store : String
  date : String
  time : ℤ
  total : ℚ
  count : ℕ
deriving DecidableEq

/-- The composite grouping key `` `${e.store}|${e.date}` ``. -/
def billKey (e : Expense) : String := e.store ++ "|" ++ e.date

/-- The `billsMap` loop body: create `{store, date, total: 0, count: 0}`
on first sight and add the amount / bump the count (fused, since the
creation is immediately followed by the addition). -/
def billStep (acc : List (String × Bill)) (e : Expense) :
    List (String × Bill) :=
  let key := billKey e
  match alGet acc key with
  | some _ => alModify acc key (fun b =>
      { b with total := b.total + e.amount, count := b.count + 1 })
  | none => acc ++ [(key, ⟨e.store, e.date, e.dateTime, e.amount, 1⟩)]

/-- All bills, keyed by the composite store-date string. -/
def billsMapOf (es : List Expense) : List (String × Bill) :=
  es.foldl billStep []

/-- The search computation of `GlobalSearch`: empty/whitespace queries
return nothing; otherwise up to 5 item matches (case-insensitive
substring on description or category) and up to 3 bill matches
(lower-cased store, or the raw date string, containing the lower-cased
query), bills sorted newest first. -/
def searchResults (es : List Expense) (query : String) :
    List Expense × List Bill :=
  if strTrim query = "" then ([], [])
  else
    let lq := strLower query
    let items := (es.filter (fun e =>
      strIncl (strLower e.description) lq ||
      strIncl (strLower (catName e.category)) lq)).take 5
    let bills := ((billsMapOf es).map Prod.snd).filter (fun b =>
      strIncl (strLower b.store) lq || strIncl b.date lq)
    (items, (sortDescBy (fun b => b.time) bills).take 3)

/-- The bill-match predicate as the claim words it: the store name or
the literal date string contains the query, case-insensitively on both
sides. -/
def specBillMatch (q : String) (b : Bill) : Bool :=
  strIncl (strLower b.store) (strLower q) ||
  strIncl (strLower b.date) (strLower q)

/-- Aggregation invariant of the bills fold. -/
theorem billsMap_inv :
    ∀ (rest pre : List Expense) (acc : List (String × Bill)),
      (acc.map Prod.fst).Nodup →
      (∀ key b, (key, b) ∈ acc →
        b.count = (pre.filter (fun e => billKey e == key)).length ∧
        b.total = ((pre.filter (fun e => billKey e == key)).map
          (fun e => e.amount)).sum ∧
        ∃ e0 ∈ pre, billKey e0 = key ∧ b.store = e0.store ∧
          b.date = e0.date ∧ b.time = e0.dateTime) →
      (∀ key, (∃ b, (key, b) ∈ acc) ↔ ∃ e ∈ pre, billKey e = key) →
      ((rest.foldl billStep acc).map Prod.fst).Nodup ∧
      (∀ key b, (key, b) ∈ rest.foldl billStep acc →
        b.count = ((pre ++ rest).filter (fun e => billKey e == key)).length ∧
        b.total = (((pre ++ rest).filter (fun e => billKey e == key)).map
          (fun e => e.amount)).sum ∧
        ∃ e0 ∈ pre ++ rest, billKey e0 = key ∧ b.store = e0.store ∧
          b.date = e0.date ∧ b.time = e0.dateTime) ∧
      (∀ key, (∃ b, (key, b) ∈ rest.foldl billStep acc) ↔
        ∃ e ∈ pre ++ rest, billKey e = key) := by
  intro rest
  induction rest with
  | nil =>
      intro pre acc h1 h2 h3
      simpa using ⟨h1, h2, h3⟩
  | cons e rest ih =>
      intro pre acc h1 h2 h3
      have hstep :
          ((billStep acc e).map Prod.fst).Nodup ∧
          (∀ key b, (key, b) ∈ billStep acc e →
            b.count = ((pre ++ [e]).filter
              (fun e2 => billKey e2 == key)).length ∧
            b.total = (((pre ++ [e]).filter (fun e2 => billKey e2 == key)).map
              (fun e2 => e2.amount)).sum ∧
            ∃ e0 ∈ pre ++ [e], billKey e0 = key ∧ b.store = e0.store ∧
              b.date = e0.date ∧ b.time = e0.dateTime) ∧
          (∀ key, (∃ b, (key, b) ∈ billStep acc e) ↔
            ∃ e2 ∈ pre ++ [e], billKey e2 = key) := by
        unfold billStep
        cases hget : alGet acc (billKey e) with
        | some b0 =>
            simp only [hget]
            refine ⟨by rw [alModify_keys]; exact h1, ?_, ?_⟩
            · intro key b hb
              rcases mem_alModify acc (billKey e) _ (key, b) hb with
                ⟨hne, hmem⟩ | ⟨heq, v, hv, hval⟩
              · simp only at hne
                obtain ⟨hc, hs, e0, he0, hk0, hrest⟩ := h2 key b hmem
                have hbf : (billKey e == key) = false :=
                  beq_eq_false_iff_ne.mpr (fun hc2 => hne hc2.symm)
                rw [List.filter_append]
                refine ⟨by rw [hc]; simp [hbf], by rw [hs]; simp [hbf],
                  e0, List.mem_append.mpr (Or.inl he0), hk0, hrest⟩
              · simp only at heq hval
                subst heq
                obtain ⟨hc, hs, e0, he0, hk0, hrest⟩ := h2 _ v hv
                rw [hval, List.filter_append]
                refine ⟨by simp [hc], by simp [hs],
                  e0, List.mem_append.mpr (Or.inl he0), hk0, ?_⟩
                simpa using hrest
            · intro key
              rw [exists_mem_iff_key, alModify_keys, ← exists_mem_iff_key,
                h3 key]
              constructor
              · rintro ⟨e2, hm, hk⟩
                exact ⟨e2, List.mem_append.mpr (Or.inl hm), hk⟩
              · rintro ⟨e2, hm, hk⟩
                rcases List.mem_append.mp hm with hm | hm
                · exact ⟨e2, hm, hk⟩
                · have he2 : e2 = e := by simpa using hm
                  rw [he2] at hk
                  rw [← hk]
                  exact (h3 (billKey e)).mp ⟨b0, alGet_mem _ _ _ hget⟩
        | none =>
            simp only [hget]
            have hknot : billKey e ∉ acc.map Prod.fst :=
              (alGet_none_iff acc (billKey e)).mp hget
            refine ⟨?_, ?_, ?_⟩
            · rw [List.map_append]
              refine List.nodup_append.mpr ⟨h1, by simp, ?_⟩
              intro a ha hb
              have hak : a = billKey e := by simpa using hb
              subst hak
              exact hknot ha
            · intro key b hb
              rcases List.mem_append.mp hb with hm | hm
              · have hkk : key ∈ acc.map Prod.fst :=
                  (exists_mem_iff_key acc key).mp ⟨b, hm⟩
                have hne : billKey e ≠ key := fun hc => hknot (hc ▸ hkk)
                obtain ⟨hc, hs, e0, he0, hk0, hrest⟩ := h2 key b hm
                have hbf : (billKey e == key) = false :=
                  beq_eq_false_iff_ne.mpr hne
                rw [List.filter_append]
                exact ⟨by rw [hc]; simp [hbf], by rw [hs]; simp [hbf],
                  e0, List.mem_append.mpr (Or.inl he0), hk0, hrest⟩
              · have hp : (key, b) = (billKey e,
                    ⟨e.store, e.date, e.dateTime, e.amount, 1⟩) := by
                  simpa using hm
                have hks : key = billKey e := congrArg Prod.fst hp
                have hbv : b = (⟨e.store, e.date, e.dateTime, e.amount, 1⟩ :
                    Bill) := congrArg Prod.snd hp
                have hnone : ¬ ∃ e2 ∈ pre, billKey e2 = key := by
                  intro hc
                  rcases (h3 key).mpr hc with ⟨b2, hb2⟩
                  exact hknot (hks ▸ (exists_mem_iff_key acc key).mp ⟨b2, hb2⟩)
                have hfil : pre.filter (fun e2 => billKey e2 == key) = [] := by
                  rw [List.filter_eq_nil_iff]
                  intro e2 hm2 hbq
                  exact hnone ⟨e2, hm2, beq_iff_eq.mp hbq⟩
                rw [hbv, List.filter_append, hfil]
                refine ⟨by simp [hks], by simp [hks],
                  e, List.mem_append.mpr (Or.inr (by simp)), hks.symm,
                  rfl, rfl, rfl⟩
            · intro key
              constructor
              · rintro ⟨b, hb⟩
                rcases List.mem_append.mp hb with hm | hm
                · rcases (h3 key).mp ⟨b, hm⟩ with ⟨e2, hm2, hk2⟩
                  exact ⟨e2, List.mem_append.mpr (Or.inl hm2), hk2⟩
                · have hp : (key, b) = (billKey e,
                      ⟨e.store, e.date, e.dateTime, e.amount, 1⟩) := by
                    simpa using hm
                  have hks : key = billKey e := congrArg Prod.fst hp
                  exact ⟨e, List.mem_append.mpr (Or.inr (by simp)), hks.symm⟩
              · rintro ⟨e2, hm, hk⟩
                rcases List.mem_append.mp hm with hm | hm
                · rcases (h3 key).mpr ⟨e2, hm, hk⟩ with ⟨b, hb⟩
                  exact ⟨b, List.mem_append.mpr (Or.inl hb)⟩
                · have he2 : e2 = e := by simpa using hm
                  rw [he2] at hk
                  refine ⟨⟨e.store, e.date, e.dateTime, e.amount, 1⟩,
                    List.mem_append.mpr (Or.inr ?_)⟩
                  simp [← hk]
      obtain ⟨s1, s2, s3⟩ := hstep
      obtain ⟨t1, t2, t3⟩ := ih (pre ++ [e]) (billStep acc e) s1 s2 s3
      have hpre : (pre ++ [e]) ++ rest = pre ++ e :: rest := by simp
      simp only [List.foldl_cons]
      refine ⟨t1, ?_, ?_⟩
      · intro key b hb
        have := t2 key b hb
        rw [hpre] at this
        exact this
      · intro key
        rw [← hpre]
        exact t3 key

theorem billsMap_spec (es : List Expense) (key : String) (b : Bill)
    (h : (key, b) ∈ billsMapOf es) :
    b.count = (es.filter (fun e => billKey e == key)).length ∧
    b.total = ((es.filter (fun e => billKey e == key)).map
      (fun e => e.amount)).sum ∧
    1 ≤ b.count ∧
    ∃ e0 ∈ es, billKey e0 = key ∧ b.store = e0.store ∧ b.date = e0.date ∧
      b.time = e0.dateTime := by
  obtain ⟨_, h2, h3⟩ := billsMap_inv es [] []
    (by simp) (by intro key b h; cases h) (by simp)
  simp only [List.nil_append] at h2 h3
  obtain ⟨hc, hs, e0, he0, hk0, hrest⟩ := h2 key b h
  refine ⟨hc, hs, ?_, e0, he0, hk0, hrest⟩
  have hmem : e0 ∈ es.filter (fun e => billKey e == key) :=
    List.mem_filter.mpr ⟨he0, beq_iff_eq.mpr hk0⟩
  rw [hc]
  exact List.length_pos.mpr (List.ne_nil_of_mem hmem)

/-- C6 (amended): an empty or whitespace-only query yields no item and
no bill matches.  Otherwise: at most 5 item matches, exactly the first
5 expenses whose lower-cased description or category contains the
lower-cased query; at most 3 bill matches, sorted newest first; and
every returned bill matches the query (lower-cased store, or raw date
string, containing the lower-cased query — the date side is NOT
lower-cased, the correction this claim needs) and aggregates total and
count over all expenses sharing its composite store-|-date key, with
store, date and time taken from a sharing expense. -/
theorem c6_search_spec (es : List Expense) (q : String) :
    (strTrim q = "" → searchResults es q = ([], [])) ∧
    (searchResults es q).1.length ≤ 5 ∧
    (searchResults es q).2.length ≤ 3 ∧
    (strTrim q ≠ "" →
      (searchResults es q).1 = (es.filter (fun e =>
        strIncl (strLower e.description) (strLower q) ||
        strIncl (strLower (catName e.category)) (strLower q))).take 5) ∧
    (searchResults es q).2.Pairwise (fun a b => b.time ≤ a.time) ∧
    (∀ b ∈ (searchResults es q).2,
      (strIncl (strLower b.store) (strLower q) ||
        strIncl b.date (strLower q)) = true ∧
      ∃ key, b.count = (es.filter (fun e => billKey e == key)).length ∧
        b.total = ((es.filter (fun e => billKey e == key)).map
          (fun e => e.amount)).sum ∧
        1 ≤ b.count ∧
        ∃ e0 ∈ es, billKey e0 = key ∧ b.store = e0.store ∧
          b.date = e0.date ∧ b.time = e0.dateTime) := by
  by_cases hq : strTrim q = ""
  · have hres : searchResults es q = ([], []) := by
      unfold searchResults
      rw [if_pos hq]
    rw [hres]
    refine ⟨fun _ => rfl, by simp, by simp, fun hc => absurd hq hc,
      by simp, ?_⟩
    intro b hb
    cases hb
  · have hres : searchResults es q = (
        (es.filter (fun e =>
          strIncl (strLower e.description) (strLower q) ||
          strIncl (strLower (catName e.category)) (strLower q))).take 5,
        (sortDescBy (fun b => b.time)
          (((billsMapOf es).map Prod.snd).filter (fun b =>
            strIncl (strLower b.store) (strLower q) ||
            strIncl b.date (strLower q)))).take 3) := by
      unfold searchResults
      rw [if_neg hq]
    rw [hres]
    refine ⟨fun hc => absurd hc hq, by simp, by simp, fun _ => rfl, ?_, ?_⟩
    · exact (pairwise_sortDescBy (fun b : Bill => b.time) _).sublist
        (List.take_sublist 3 _)
    · intro b hb
      have hb2 : b ∈ sortDescBy (fun b : Bill => b.time)
          (((billsMapOf es).map Prod.snd).filter (fun b =>
            strIncl (strLower b.store) (strLower q) ||
            strIncl b.date (strLower q))) :=
        (List.take_sublist 3 _).mem hb
      have hb3 : b ∈ ((billsMapOf es).map Prod.snd).filter (fun b =>
          strIncl (strLower b.store) (strLower q) ||
          strIncl b.date (strLower q)) :=
        (mem_sortDescBy (fun b : Bill => b.time) _ b).mp hb2
      obtain ⟨hb4, hmatch⟩ := List.mem_filter.mp hb3
      refine ⟨hmatch, ?_⟩
      rcases List.mem_map.mp hb4 with ⟨⟨key, b2⟩, hkb, hsnd⟩
      simp only at hsnd
      subst hsnd
      obtain ⟨hc, hs, h1, hrest⟩ := billsMap_spec es key b2 hkb
      exact ⟨key, hc, hs, h1, hrest⟩

/-- C6 witness input: the spec's search example. -/
def esC6 : List Expense :=
  [⟨"1", "Organic Milk", 3, "2023-10-26", 0, .dairyEggs, "X", "Me", "Me",
    none⟩]

/-- C6 witness: the search theorem applied at a nonempty query. -/
theorem c6_search_spec_witness :
    (strTrim "milk" ≠ "") ∧
    (searchResults esC6 "milk").1 = (esC6.filter (fun e =>
      strIncl (strLower e.description) (strLower "milk") ||
      strIncl (strLower (catName e.category)) (strLower "milk"))).take 5 :=
  ⟨by decide, (c6_search_spec esC6 "milk").2.2.2.1 (by decide)⟩

/-- C6 counterexample input: a date string containing upper-case
letters. -/
def esC6x : List Expense :=
  [⟨"1", "x", 1, "2023-OCT-26", 0, .other, "S", "Me", "Me", none⟩]

/-- C6 counterexample: for query "OCT" the single bill matches the
claim's case-insensitive date criterion (`specBillMatch`), yet the
search returns no bill: the code tests the raw date string against the
lower-cased query (`"2023-OCT-26".includes("oct")` is false), so date
matching is case-sensitive on the date side, not case-insensitive as
claimed. -/
theorem c6_counterexample :
    (billsMapOf esC6x).map Prod.snd = [⟨"S", "2023-OCT-26", 0, 1, 1⟩] ∧
    specBillMatch "OCT" ⟨"S", "2023-OCT-26", 0, 1, 1⟩ = true ∧
    strTrim "OCT" ≠ "" ∧
    (searchResults esC6x "OCT").2 = [] := by
  decide

/-! ### Review save (`handleFinalSave` in `ExpenseForm`) -/

/-- The Personal / Shared bill toggle. -/
inductive BillType where
  | personal
  | shared
deriving DecidableEq

/-- One reviewed line item awaiting save (`PendingItem`, less the
ephemeral `tempId`). -/
structure PendingItem where
  description : String
  amount : ℚ
  date : String
  category : Category
  store : String
  owner : String
deriving DecidableEq

/-- One record passed to `onAddExpenses` (an `Expense` without id). -/
structure NewExpense where
  description : String
  amount : ℚ
  originalAmount : ℚ
  date : String
  category : Category
  store : String
  payer : String
  owner : String
deriving DecidableEq

/-- `parseFloat(x.toFixed(2))`: round to 2 decimal places (half up,
for the nonnegative amounts that occur). -/
def round2 (q : ℚ) : ℚ := ((round (q * 100) : ℤ) : ℚ) / 100

/-- `handleFinalSave`: apportion a positive global discount over the
items by their share of the subtotal, clamp at zero, round the saved
amount to cents, and keep the entered amount in `originalAmount`.
`discountVal` stands for `parseFloat(globalDiscount) || 0`; a personal
bill forces payer and owner to "Me". -/
def handleFinalSave (pendingItems : List PendingItem) (discountVal : ℚ)
    (billType : BillType) (payer : String) : List NewExpense :=
  let totalBillAmount := (pendingItems.map (fun i => i.amount)).sum
  let finalPayer := if billType = BillType.personal then "Me" else payer
  pendingItems.map (fun item =>
    let finalAmount :=
      if 0 < discountVal ∧ 0 < totalBillAmount then
        let frac := item.amount / totalBillAmount
        let itemDiscountShare := discountVal * frac
        max 0 (item.amount - itemDiscountShare)
      else item.amount
    ⟨item.description, round2 finalAmount, item.amount, item.date,
      item.category, item.store, finalPayer,
      if billType = BillType.personal then "Me" else item.owner⟩)

/-- C7 (amended): with a positive discount `D` and a positive subtotal
`T`, every saved amount is `max(0, amount - D * (amount / T))`
ROUNDED TO 2 DECIMALS (the rounding is the correction this claim
needs); with `D = 0` every saved amount is the entered amount rounded
to 2 decimals; and `originalAmount` always preserves the entered
amount. -/
theorem c7_discount_rounding (items : List PendingItem) (D : ℚ)
    (bt : BillType) (payer : String) :
    ((handleFinalSave items D bt payer).map (fun x => x.originalAmount)
      = items.map (fun i => i.amount)) ∧
    (0 < D → 0 < (items.map (fun i => i.amount)).sum →
      (handleFinalSave items D bt payer).map (fun x => x.amount)
        = items.map (fun i => round2 (max 0 (i.amount -
            D * (i.amount / (items.map (fun i2 => i2.amount)).sum))))) ∧
    (D = 0 →
      (handleFinalSave items D bt payer).map (fun x => x.amount)
        = items.map (fun i => round2 i.amount)) := by
  refine ⟨?_, ?_, ?_⟩
  · unfold handleFinalSave
    rw [List.map_map]
    rfl
  · intro hD hT
    unfold handleFinalSave
    rw [List.map_map]
    apply List.map_congr_left
    intro i _
    simp only [Function.comp]
    rw [if_pos ⟨hD, hT⟩]
  · intro hD
    unfold handleFinalSave
    rw [List.map_map]
    apply List.map_congr_left
    intro i _
    simp only [Function.comp]
    rw [if_neg (by rw [hD]; simp)]

/-- C7 witness input: amounts 1 and 2, global discount 1. -/
def itemsC7 : List PendingItem :=
  [⟨"a", 1, "2024-01-01", .pantry, "S", "Me"⟩,
   ⟨"b", 2, "2024-01-01", .pantry, "S", "Me"⟩]

/-- C7 witness: the rounding theorem applied to the two-item bill. -/
theorem c7_discount_rounding_witness :
    ((0 : ℚ) < 1 ∧ (0 : ℚ) < (itemsC7.map (fun i => i.amount)).sum) ∧
    (handleFinalSave itemsC7 1 .shared "Me").map (fun x => x.amount)
      = itemsC7.map (fun i => round2 (max 0 (i.amount -
          1 * (i.amount / (itemsC7.map (fun i2 => i2.amount)).sum)))) :=
  ⟨⟨by norm_num, by norm_num [itemsC7]⟩,
   (c7_discount_rounding itemsC7 1 .shared "Me").2.1 (by norm_num)
     (by norm_num [itemsC7])⟩

/-- C7 counterexample: for amounts [1, 2] and discount 1, the first
saved amount is `round2 (2/3) = 0.67`, not the claim's un-rounded
`max(0, 1 - 1 * (1/3)) = 2/3`: saved amounts are rounded to cents by
`parseFloat(finalAmount.toFixed(2))`, which the claim omits. -/
theorem c7_counterexample :
    ((handleFinalSave itemsC7 1 .shared "Me").map
        (fun x => x.amount)).headD 0
      ≠ max 0 ((1 : ℚ) - 1 * ((1 : ℚ) / 3)) := by
  have hval : ((handleFinalSave itemsC7 1 .shared "Me").map
      (fun x => x.amount)).headD 0 = 67 / 100 := by
    norm_num [handleFinalSave, itemsC7, round2, round_eq, max_def]
  rw [hval]
  rw [max_eq_right (by norm_num)]
  norm_num

end Smartspend
